import Mathlib

/-!
# Minimum group-max partition solver

Shallow embedding of `src/code.cpp` (a single `main`) and the properties of it.

* `effort` is the vector once the input is read and `N` is its length; `K` is an integer.
* `int` values are integers; the two places where the program adds `int` values
  (`accumulate` and `dp[k-1][j-1] + mx`) wrap modulo `2^32` through `wrap32`.
* `vector` reads and writes are checked: an index outside the vector gives `none`, and so
  does `*max_element` on an empty vector and a negative size in a `vector` constructor.
* The three `for` loops are bounded loops over a counter that the body never changes; they
  are the combinators `forUp` and `forDown`, so every run of the embedding ends.
* In `main` the sizes `N + 1`, `K + 1` and the counters `k`, `i`, `j` are computed without
  overflow. `main32` is `main` with the two sizes of line 27 evaluated in `int`; the two
  agree whenever `N` and `K` are below `2^31 - 1` (`main32_eq_main`), and `main32` decides
  what happens for a group count `K` outside `1 .. N`.

The specification side is `IsCut` (a cut of the sequence into `K` contiguous non-empty
groups), `cost` (the sum of the groups' maxima) and `IsMinCost` (a value that is the cost
of some cut and at most the cost of every cut).
-/

namespace GroupMax

/-! ## Machine integers and vectors -/

/-- The constant `INT_MAX` of a 32-bit `int`. -/
def INT_MAX : Int := 2147483647

/-- The 32-bit signed value an arithmetic result takes after wrapping modulo `2^32`. -/
def wrap32 (x : Int) : Int := (x + 2147483648) % 4294967296 - 2147483648

/-- A `vector<vector<int>>`. -/
abbrev Table := List (List Int)

/-- Checked read `v[i]`: `none` when `i` is not an index of `v`. -/
def vget {α : Type} (v : List α) (i : Int) : Option α :=
  if 0 ≤ i then v[i.toNat]? else none

/-- Checked write `v[i] = a`: `none` when `i` is not an index of `v`. -/
def vset {α : Type} (v : List α) (i : Int) (a : α) : Option (List α) :=
  if 0 ≤ i ∧ i.toNat < v.length then some (v.set i.toNat a) else none

/-- The call `accumulate(v.begin(), v.end(), init)` on `int`s: a left fold of `+`. -/
def accumulate (v : List Int) (init : Int) : Int :=
  v.foldl (fun acc x => wrap32 (acc + x)) init

/-- The expression `*max_element(v.begin(), v.end())`: the first largest element,
and `none` on the empty vector, where the returned iterator is `end()`. -/
def max_element : List Int → Option Int
  | [] => none
  | x :: xs => some (xs.foldl (fun m y => if m < y then y else m) x)

/-! ## Loops -/

/-- The loop `for (x = lo; x < lo + n; ++x) body`, threading the state. -/
def forUp {σ : Type} (body : Nat → σ → Option σ) : Nat → Nat → σ → Option σ
  | _, 0, s => some s
  | lo, n + 1, s =>
    match body lo s with
    | none => none
    | some s' => forUp body (lo + 1) n s'

/-- The loop `for (x = hi; x > hi - n; --x) body`, threading the state. -/
def forDown {σ : Type} (body : Nat → σ → Option σ) : Nat → Nat → σ → Option σ
  | _, 0, s => some s
  | hi, n + 1, s =>
    match body hi s with
    | none => none
    | some s' => forDown body (hi - 1) n s'

/-! ## The program -/

/-- Body of the innermost loop (lines 35-37), on the state `(dp, mx)`. -/
def splitStep (effort : List Int) (k i j : Nat) (st : Table × Int) : Option (Table × Int) :=
  match vget effort ((j : Int) - 1) with
  | none => none
  | some e =>
    let mx := max st.2 e
    match vget st.1 ((k : Int) - 1) with
    | none => none
    | some prevRow =>
      match vget prevRow ((j : Int) - 1) with
      | none => none
      | some prev =>
        if prev ≠ INT_MAX then
          match vget st.1 (k : Int) with
          | none => none
          | some row =>
            match vget row (i : Int) with
            | none => none
            | some cur =>
              match vset row (i : Int) (min cur (wrap32 (prev + mx))) with
              | none => none
              | some row' =>
                match vset st.1 (k : Int) row' with
                | none => none
                | some dp' => some (dp', mx)
        else some (st.1, mx)

/-- Lines 32-38: `mx = 0`, then `j` runs from `i` down to `k`. -/
def fillCell (effort : List Int) (k i : Nat) (dp : Table) : Option Table :=
  (forDown (splitStep effort k i) i (i + 1 - k) (dp, 0)).map Prod.fst

/-- Lines 31-39: `i` runs from `k` up to `N`. -/
def fillRow (effort : List Int) (N k : Nat) (dp : Table) : Option Table :=
  forUp (fillCell effort k) k (N + 1 - k) dp

/-- Lines 27-40: the table is created, `dp[0][0]` is set, `k` runs from `1` up to `K`.
A negative row count makes the `vector` constructor throw. -/
def fillTable (effort : List Int) (N : Nat) (K : Int) : Option Table :=
  if K + 1 < 0 then none
  else
    let dp : Table := List.replicate (K + 1).toNat (List.replicate (N + 1) INT_MAX)
    match vget dp 0 with
    | none => none
    | some row0 =>
      match vset row0 0 0 with
      | none => none
      | some row0' =>
        match vset dp 0 row0' with
        | none => none
        | some dp' => forUp (fillRow effort N) 1 K.toNat dp'

/-- The program: `effort` is the vector read from the input (`N` is its length), `K` the
group count; the result is the number printed, `none` when the run has no defined result. -/
def main (effort : List Int) (K : Int) : Option Int :=
  let N := effort.length
  if K = (N : Int) then some (accumulate effort 0)
  else if K = 1 then max_element effort
  else
    match fillTable effort N K with
    | none => none
    | some dp =>
      match vget dp K with
      | none => none
      | some row => vget row (N : Int)

/-- Lines 27-40 with the sizes `K + 1` and `N + 1` evaluated in `int`, as line 27 does: a
size that overflows is negative, and a negative size makes the `vector` constructor throw. -/
def fillTable32 (effort : List Int) (N : Nat) (K : Int) : Option Table :=
  let rows : Int := wrap32 (K + 1)
  let cols : Int := wrap32 ((N : Int) + 1)
  if rows < 0 ∨ cols < 0 then none
  else
    let dp : Table := List.replicate rows.toNat (List.replicate cols.toNat INT_MAX)
    match vget dp 0 with
    | none => none
    | some row0 =>
      match vset row0 0 0 with
      | none => none
      | some row0' =>
        match vset dp 0 row0' with
        | none => none
        | some dp' => forUp (fillRow effort N) 1 K.toNat dp'

/-- The program with the sizes of line 27 evaluated in `int`: `main` with `fillTable32` for
`fillTable`. -/
def main32 (effort : List Int) (K : Int) : Option Int :=
  let N := effort.length
  if K = (N : Int) then some (accumulate effort 0)
  else if K = 1 then max_element effort
  else
    match fillTable32 effort N K with
    | none => none
    | some dp =>
      match vget dp K with
      | none => none
      | some row => vget row (N : Int)

/-- The program with its two shortcuts (lines 12-24) removed: the table is filled for every
`K` and `dp[K][N]` is printed. -/
def mainNoShortcut (effort : List Int) (K : Int) : Option Int :=
  match fillTable effort effort.length K with
  | none => none
  | some dp =>
    match vget dp K with
    | none => none
    | some row => vget row (effort.length : Int)

/-! ## The rolling-row variant

The variant of the table fill that the specification allows: only the previous row and
the current row are kept, each of length `N + 1`. -/

/-- The inner update of the rolling variant on the state `(cur, mx)`: the update of lines
35-37 with `prev` for `dp[k-1]` and `cur` for `dp[k]`. -/
def rollStep (effort prev : List Int) (i j : Nat) (st : List Int × Int) :
    Option (List Int × Int) :=
  match vget effort ((j : Int) - 1) with
  | none => none
  | some e =>
    let mx := max st.2 e
    match vget prev ((j : Int) - 1) with
    | none => none
    | some p =>
      if p ≠ INT_MAX then
        match vget st.1 (i : Int) with
        | none => none
        | some c =>
          match vset st.1 (i : Int) (min c (wrap32 (p + mx))) with
          | none => none
          | some cur' => some (cur', mx)
      else some (st.1, mx)

/-- The rolling variant for one entry: `mx = 0`, then `j` runs from `i` down to `k`. -/
def rollCell (effort prev : List Int) (k i : Nat) (cur : List Int) : Option (List Int) :=
  (forDown (rollStep effort prev i) i (i + 1 - k) (cur, 0)).map Prod.fst

/-- The rolling variant for one row: a fresh current row of `N + 1` sentinels is filled
for `i` from `k` up to `N`, and becomes the previous row. -/
def rollRow (effort : List Int) (N k : Nat) (prev : List Int) : Option (List Int) :=
  forUp (rollCell effort prev k) k (N + 1 - k) (List.replicate (N + 1) INT_MAX)

/-- The rolling variant: the first row is `[0, INT_MAX, ..., INT_MAX]`, the row update is
applied for `k` from `1` up to `K`, and the last row is returned. -/
def rollingRows (effort : List Int) (N K : Nat) : Option (List Int) :=
  forUp (rollRow effort N) 1 K (0 :: List.replicate N INT_MAX)

/-- The number the rolling variant prints: entry `N` of its last row. -/
def rollingResult (effort : List Int) (K : Nat) : Option Int :=
  match rollingRows effort effort.length K with
  | none => none
  | some row => vget row (effort.length : Int)

/-! ## The program over a given addition

The same program with the addition of two `int` values as a parameter `add`, which may
fail: with `addWrap` it is `main`, with `addExact` it computes over unbounded integers, and
with `addChecked` a sum outside the range of `int` stops the run. -/

/-- Wrap-around 32-bit addition, the addition of `main`. -/
def addWrap (a b : Int) : Option Int := some (wrap32 (a + b))

/-- Exact addition over unbounded integers. -/
def addExact (a b : Int) : Option Int := some (a + b)

/-- Checked 32-bit addition: `none` when the sum is not an `int` value. -/
def addChecked (a b : Int) : Option Int :=
  if -2147483648 ≤ a + b ∧ a + b ≤ 2147483647 then some (a + b) else none

/-- The call `accumulate(v.begin(), v.end(), init)` over the addition `add`. -/
def accumulateA (add : Int → Int → Option Int) : List Int → Int → Option Int
  | [], acc => some acc
  | x :: xs, acc =>
    match add acc x with
    | none => none
    | some acc' => accumulateA add xs acc'

/-- Body of the innermost loop (lines 35-37) over the addition `add`. -/
def splitStepA (add : Int → Int → Option Int) (effort : List Int) (k i j : Nat)
    (st : Table × Int) : Option (Table × Int) :=
  match vget effort ((j : Int) - 1) with
  | none => none
  | some e =>
    let mx := max st.2 e
    match vget st.1 ((k : Int) - 1) with
    | none => none
    | some prevRow =>
      match vget prevRow ((j : Int) - 1) with
      | none => none
      | some prev =>
        if prev ≠ INT_MAX then
          match add prev mx with
          | none => none
          | some cand =>
            match vget st.1 (k : Int) with
            | none => none
            | some row =>
              match vget row (i : Int) with
              | none => none
              | some cur =>
                match vset row (i : Int) (min cur cand) with
                | none => none
                | some row' =>
                  match vset st.1 (k : Int) row' with
                  | none => none
                  | some dp' => some (dp', mx)
        else some (st.1, mx)

/-- Lines 32-38 over the addition `add`. -/
def fillCellA (add : Int → Int → Option Int) (effort : List Int) (k i : Nat) (dp : Table) :
    Option Table :=
  (forDown (splitStepA add effort k i) i (i + 1 - k) (dp, 0)).map Prod.fst

/-- Lines 31-39 over the addition `add`. -/
def fillRowA (add : Int → Int → Option Int) (effort : List Int) (N k : Nat) (dp : Table) :
    Option Table :=
  forUp (fillCellA add effort k) k (N + 1 - k) dp

/-- Lines 27-40 over the addition `add`. -/
def fillTableA (add : Int → Int → Option Int) (effort : List Int) (N : Nat) (K : Int) :
    Option Table :=
  if K + 1 < 0 then none
  else
    let dp : Table := List.replicate (K + 1).toNat (List.replicate (N + 1) INT_MAX)
    match vget dp 0 with
    | none => none
    | some row0 =>
      match vset row0 0 0 with
      | none => none
      | some row0' =>
        match vset dp 0 row0' with
        | none => none
        | some dp' => forUp (fillRowA add effort N) 1 K.toNat dp'

/-- The program over the addition `add`. -/
def mainA (add : Int → Int → Option Int) (effort : List Int) (K : Int) : Option Int :=
  let N := effort.length
  if K = (N : Int) then accumulateA add effort 0
  else if K = 1 then max_element effort
  else
    match fillTableA add effort N K with
    | none => none
    | some dp =>
      match vget dp K with
      | none => none
      | some row => vget row (N : Int)

/-- The addition `add` is exact on the sums between `0` and `S`; outside it may return
anything or fail. -/
def ExactUpTo (add : Int → Int → Option Int) (S : Int) : Prop :=
  ∀ a b : Int, 0 ≤ a + b → a + b ≤ S → add a b = some (a + b)

/-! ## Specification: cuts into contiguous groups -/

/-- The largest element of a group (`0` for the empty list, which is never a group). -/
def groupMax : List Int → Int
  | [] => 0
  | x :: xs => xs.foldl max x

/-- The cost of a grouping: the sum of the groups' maxima. -/
def cost (gs : List (List Int)) : Int := (gs.map groupMax).sum

/-- The grouping `gs` cuts `effort` into exactly `K` contiguous non-empty groups. -/
def IsCut (effort : List Int) (K : Nat) (gs : List (List Int)) : Prop :=
  gs.flatten = effort ∧ gs.length = K ∧ ∀ g ∈ gs, g ≠ []

/-- The value `r` is the minimum cost over the cuts of `effort` into `K` groups: some
cut has cost `r` and no cut is cheaper. -/
def IsMinCost (effort : List Int) (K : Nat) (r : Int) : Prop :=
  (∃ gs, IsCut effort K gs ∧ cost gs = r) ∧ ∀ gs, IsCut effort K gs → r ≤ cost gs

/-! ## The table as a function and the values the loops compute -/

/-- A row with `C` entries, entry `c` being `g c`. -/
def rowOf (C : Nat) (g : Nat → Int) : List Int := (List.range C).map g

/-- The table with `R` rows and `C` columns whose entry `(r, c)` is `f r c`. -/
def tab (R C : Nat) (f : Nat → Nat → Int) : Table := (List.range R).map (fun r => rowOf C (f r))

/-- The innermost loop body on the values it computes: the state is `(dp[k][i], mx)` and
`prev` is row `k-1`. -/
def cellStep (effort : List Int) (prev : Nat → Int) (j : Nat) (st : Int × Int) : Int × Int :=
  let mx := max st.2 (effort.getD (j - 1) 0)
  (if prev (j - 1) ≠ INT_MAX then min st.1 (wrap32 (prev (j - 1) + mx)) else st.1, mx)

/-- The innermost loop on values: `j` runs from `hi` down, `n` times. -/
def cellLoop (effort : List Int) (prev : Nat → Int) : Nat → Nat → Int × Int → Int × Int
  | _, 0, st => st
  | hi, n + 1, st => cellLoop effort prev (hi - 1) n (cellStep effort prev hi st)

/-- The value the loops leave in `dp[k][i]`, as a recurrence on the row number. -/
def rowVal (effort : List Int) : Nat → Nat → Int
  | 0, i => if i = 0 then 0 else INT_MAX
  | k + 1, i =>
    if k + 1 ≤ i then (cellLoop effort (rowVal effort k) i (i - k) (INT_MAX, 0)).1 else INT_MAX

/-- Write `v` at entry `(k, i)` of a table given as a function. -/
def setCell (f : Nat → Nat → Int) (k i : Nat) (v : Int) : Nat → Nat → Int :=
  Function.update f k (Function.update (f k) i v)

/-- The table after row `k` has been filled at the columns `k .. k+n-1`. -/
def rowPartial (effort : List Int) (f : Nat → Nat → Int) (k n : Nat) : Nat → Nat → Int :=
  fun r c =>
    if r = k ∧ k ≤ c ∧ c < k + n then
      (cellLoop effort (f (k - 1)) c (c + 1 - k) (f k c, 0)).1
    else f r c

/-- The table once the rows `1 .. n` are filled. -/
def upTo (effort : List Int) (n : Nat) : Nat → Nat → Int :=
  fun r c => if r ≤ n then rowVal effort r c else INT_MAX

/-! ## Invariants -/

/-- What a table entry `v` at `(k, m)` means: if it is not the sentinel it is the cost of
a cut of the first `m` elements into `k` groups, and it is at most the cost of any. -/
def Good (effort : List Int) (k m : Nat) (v : Int) : Prop :=
  (v ≠ INT_MAX → ∃ gs, IsCut (effort.take m) k gs ∧ cost gs = v) ∧
    ∀ gs, IsCut (effort.take m) k gs → v ≤ cost gs

/-- No cut of a prefix of `effort` into at most `K` groups costs `INT_MAX` or more. -/
def CostsFit (effort : List Int) (K : Nat) : Prop :=
  ∀ k i gs, k ≤ K → i ≤ effort.length → IsCut (effort.take i) k gs → cost gs < INT_MAX

/-- Invariant of the innermost loop for entry `(k+1, i)`, before `j = hi` is processed:
`mx` is the largest of `effort[hi .. i-1]`, the entry is the sentinel or the cost of a cut,
and it is at most the cost of every cut whose last group starts at `hi` or later. -/
def LoopInv (effort : List Int) (k i hi : Nat) (st : Int × Int) : Prop :=
  st.2 = groupMax ((effort.take i).drop hi) ∧
    (st.1 ≠ INT_MAX → ∃ gs, IsCut (effort.take i) (k + 1) gs ∧ cost gs = st.1) ∧
    ∀ init m, hi ≤ m → m < i → IsCut (effort.take m) k init →
      st.1 ≤ cost init + groupMax ((effort.take i).drop m)

/-! ## Vectors and tables -/

theorem vget_natCast {α : Type} (v : List α) (n : Nat) : vget v (n : Int) = v[n]? := by
  simp [vget]

theorem vget_pred {α : Type} (v : List α) (j : Nat) (h : 1 ≤ j) :
    vget v ((j : Int) - 1) = v[j - 1]? := by
  obtain ⟨m, rfl⟩ : ∃ m, j = m + 1 := ⟨j - 1, by omega⟩
  have : ((m + 1 : Nat) : Int) - 1 = (m : Int) := by push_cast; ring
  rw [this, vget_natCast]; simp

theorem vset_natCast {α : Type} (v : List α) (n : Nat) (a : α) (h : n < v.length) :
    vset v (n : Int) a = some (v.set n a) := by
  simp [vset, h]

theorem rowOf_length (C : Nat) (g : Nat → Int) : (rowOf C g).length = C := by
  simp [rowOf]

theorem tab_length (R C : Nat) (f : Nat → Nat → Int) : (tab R C f).length = R := by
  simp [tab]

theorem rowOf_get (C : Nat) (g : Nat → Int) (c : Nat) (h : c < C) :
    (rowOf C g)[c]? = some (g c) := by
  simp [rowOf, List.getElem?_range h]

theorem tab_get (R C : Nat) (f : Nat → Nat → Int) (r : Nat) (h : r < R) :
    (tab R C f)[r]? = some (rowOf C (f r)) := by
  simp [tab, List.getElem?_range h]

theorem rowOf_congr (C : Nat) (g g' : Nat → Int) (h : ∀ c, c < C → g c = g' c) :
    rowOf C g = rowOf C g' := by
  unfold rowOf
  apply List.map_congr_left
  intro c hc
  exact h c (List.mem_range.mp hc)

theorem tab_congr (R C : Nat) (f f' : Nat → Nat → Int)
    (h : ∀ r c, r < R → c < C → f r c = f' r c) : tab R C f = tab R C f' := by
  unfold tab
  apply List.map_congr_left
  intro r hr
  exact rowOf_congr C _ _ (fun c hc => h r c (List.mem_range.mp hr) hc)

theorem rowOf_set (C : Nat) (g : Nat → Int) (c : Nat) (v : Int) :
    (rowOf C g).set c v = rowOf C (Function.update g c v) := by
  apply List.ext_getElem?
  intro n
  by_cases hn : n < C
  · rw [List.getElem?_set, rowOf_get C _ n hn, rowOf_get C _ n hn, rowOf_length]
    by_cases hcn : c = n
    · subst hcn; simp [hn]
    · have : n ≠ c := fun h => hcn h.symm
      simp [hcn, Function.update_noteq this]
  · have h1 : (rowOf C (Function.update g c v)).length ≤ n := by rw [rowOf_length]; omega
    have h2 : ((rowOf C g).set c v).length ≤ n := by rw [List.length_set, rowOf_length]; omega
    rw [List.getElem?_eq_none h1, List.getElem?_eq_none h2]

theorem tab_set (R C : Nat) (f : Nat → Nat → Int) (r : Nat) (g : Nat → Int) :
    (tab R C f).set r (rowOf C g) = tab R C (Function.update f r g) := by
  apply List.ext_getElem?
  intro n
  by_cases hn : n < R
  · rw [List.getElem?_set, tab_get R C _ n hn, tab_get R C _ n hn, tab_length]
    by_cases hrn : r = n
    · subst hrn; simp [hn]
    · have : n ≠ r := fun h => hrn h.symm
      simp [hrn, Function.update_noteq this]
  · have h1 : (tab R C (Function.update f r g)).length ≤ n := by rw [tab_length]; omega
    have h2 : ((tab R C f).set r (rowOf C g)).length ≤ n := by
      rw [List.length_set, tab_length]; omega
    rw [List.getElem?_eq_none h1, List.getElem?_eq_none h2]

theorem vset_rowOf (C : Nat) (g : Nat → Int) (c : Nat) (v : Int) (h : c < C) :
    vset (rowOf C g) (c : Int) v = some (rowOf C (Function.update g c v)) := by
  rw [vset_natCast _ c _ (by rw [rowOf_length]; exact h), rowOf_set]

theorem vset_tab (R C : Nat) (f : Nat → Nat → Int) (r : Nat) (g : Nat → Int) (h : r < R) :
    vset (tab R C f) (r : Int) (rowOf C g) = some (tab R C (Function.update f r g)) := by
  rw [vset_natCast _ r _ (by rw [tab_length]; exact h), tab_set]

/-! ## The loops compute `rowVal` -/

theorem setCell_same (f : Nat → Nat → Int) (k i : Nat) (v : Int) : setCell f k i v k i = v := by
  simp [setCell]

theorem setCell_row (f : Nat → Nat → Int) (k i r : Nat) (v : Int) (h : r ≠ k) :
    setCell f k i v r = f r := by
  simp [setCell, Function.update_noteq h]

theorem setCell_col (f : Nat → Nat → Int) (k i c : Nat) (v : Int) (h : c ≠ i) :
    setCell f k i v k c = f k c := by
  simp [setCell, Function.update_noteq h]

theorem setCell_setCell (f : Nat → Nat → Int) (k i : Nat) (v w : Int) :
    setCell (setCell f k i v) k i w = setCell f k i w := by
  simp [setCell]

theorem setCell_self (f : Nat → Nat → Int) (k i : Nat) : setCell f k i (f k i) = f := by
  simp [setCell]

theorem splitStep_tab (effort : List Int) (R k i j : Nat) (f : Nat → Nat → Int) (mx : Int)
    (hk : 1 ≤ k) (hkj : k ≤ j) (hji : j ≤ i) (hiN : i ≤ effort.length) (hkR : k < R) :
    splitStep effort k i j (tab R (effort.length + 1) f, mx) =
      some (tab R (effort.length + 1)
              (setCell f k i (cellStep effort (f (k - 1)) j (f k i, mx)).1),
            (cellStep effort (f (k - 1)) j (f k i, mx)).2) := by
  have hj1 : j - 1 < effort.length := by omega
  have he : effort[j - 1]? = some (effort.getD (j - 1) 0) := by
    rw [List.getD_eq_getElem?_getD, List.getElem?_eq_getElem hj1]; simp
  unfold splitStep
  simp only [vget_pred _ j (by omega), vget_pred _ k hk, vget_natCast, he,
    tab_get R _ f (k - 1) (by omega), rowOf_get (effort.length + 1) (f (k - 1)) (j - 1) (by omega),
    tab_get R _ f k hkR, rowOf_get (effort.length + 1) (f k) i (by omega)]
  by_cases hp : f (k - 1) (j - 1) = INT_MAX
  · simp [hp, cellStep, setCell_self]
  · have hi1 : i < effort.length + 1 := by omega
    simp [hp, cellStep, setCell, vset_rowOf (effort.length + 1) _ i _ hi1,
      vset_tab R (effort.length + 1) f k _ hkR]

theorem forDown_splitStep (effort : List Int) (R k i : Nat) (hk : 1 ≤ k)
    (hiN : i ≤ effort.length) (hkR : k < R) :
    ∀ (n hi : Nat) (f : Nat → Nat → Int) (mx : Int), hi ≤ i → k + n ≤ hi + 1 →
      forDown (splitStep effort k i) hi n (tab R (effort.length + 1) f, mx) =
        some (tab R (effort.length + 1)
                (setCell f k i (cellLoop effort (f (k - 1)) hi n (f k i, mx)).1),
              (cellLoop effort (f (k - 1)) hi n (f k i, mx)).2) := by
  intro n
  induction n with
  | zero =>
    intro hi f mx _ _
    simp [forDown, cellLoop, setCell_self]
  | succ n ih =>
    intro hi f mx hhi hkn
    have hrow : setCell f k i (cellStep effort (f (k - 1)) hi (f k i, mx)).1 (k - 1) = f (k - 1) :=
      setCell_row f k i (k - 1) _ (by omega)
    rw [forDown, splitStep_tab effort R k i hi f mx hk (by omega) hhi hiN hkR]
    simp only []
    rw [ih (hi - 1) _ _ (by omega) (by omega), hrow, setCell_same, setCell_setCell]
    simp [cellLoop]

theorem fillCell_tab (effort : List Int) (R k i : Nat) (f : Nat → Nat → Int) (hk : 1 ≤ k)
    (hki : k ≤ i) (hiN : i ≤ effort.length) (hkR : k < R) :
    fillCell effort k i (tab R (effort.length + 1) f) =
      some (tab R (effort.length + 1)
        (setCell f k i (cellLoop effort (f (k - 1)) i (i + 1 - k) (f k i, 0)).1)) := by
  unfold fillCell
  rw [forDown_splitStep effort R k i hk hiN hkR (i + 1 - k) i f 0 (le_refl i) (by omega)]
  rfl

theorem forUp_succ_last {σ : Type} (body : Nat → σ → Option σ) :
    ∀ (n lo : Nat) (s : σ),
      forUp body lo (n + 1) s = (forUp body lo n s).bind (body (lo + n)) := by
  intro n
  induction n with
  | zero =>
    intro lo s
    cases h : body lo s <;> simp [forUp, h]
  | succ n ih =>
    intro lo s
    rw [forUp]
    cases h : body lo s with
    | none => simp [forUp, h]
    | some s' =>
      simp only []
      rw [ih (lo + 1) s']
      conv_rhs => rw [forUp]
      simp only [h]
      have : lo + 1 + n = lo + (n + 1) := by omega
      rw [this]

theorem forUp_fillCell (effort : List Int) (R k : Nat) (f : Nat → Nat → Int) (hk : 1 ≤ k)
    (hkR : k < R) :
    ∀ n : Nat, n ≤ effort.length + 1 - k →
      forUp (fillCell effort k) k n (tab R (effort.length + 1) f) =
        some (tab R (effort.length + 1) (rowPartial effort f k n)) := by
  intro n
  induction n with
  | zero =>
    intro _
    have : rowPartial effort f k 0 = f := by
      funext r c
      simp [rowPartial]
    simp [forUp, this]
  | succ n ih =>
    intro hn
    rw [forUp_succ_last, ih (by omega)]
    simp only [Option.some_bind]
    rw [fillCell_tab effort R k (k + n) _ hk (by omega) (by omega) hkR]
    congr 2
    have h1 : rowPartial effort f k n (k - 1) = f (k - 1) := by
      funext c
      have : k - 1 ≠ k := by omega
      simp [rowPartial, this]
    have h2 : rowPartial effort f k n k (k + n) = f k (k + n) := by
      simp [rowPartial]
    rw [h1, h2]
    funext r c
    by_cases hr : r = k
    · subst hr
      by_cases hc : c = r + n
      · subst hc
        rw [setCell_same]
        simp [rowPartial]
      · rw [setCell_col _ _ _ _ _ hc]
        have : (c < r + n) ↔ (c < r + (n + 1)) := by omega
        simp [rowPartial, this]
    · rw [setCell_row _ _ _ _ _ hr]
      simp [rowPartial, hr]

theorem fillRow_tab (effort : List Int) (R k : Nat) (f : Nat → Nat → Int) (hk : 1 ≤ k)
    (hkR : k < R) :
    fillRow effort effort.length k (tab R (effort.length + 1) f) =
      some (tab R (effort.length + 1) (rowPartial effort f k (effort.length + 1 - k))) :=
  forUp_fillCell effort R k f hk hkR _ (le_refl _)

theorem rowPartial_upTo (effort : List Int) (R n : Nat) :
    tab R (effort.length + 1)
        (rowPartial effort (upTo effort n) (n + 1) (effort.length + 1 - (n + 1))) =
      tab R (effort.length + 1) (upTo effort (n + 1)) := by
  apply tab_congr
  intro r c _ hc
  have hprev : upTo effort n (n + 1 - 1) = rowVal effort n := by
    funext c
    simp [upTo]
  have hcur : upTo effort n (n + 1) c = INT_MAX := by
    simp [upTo]
  by_cases hr : r = n + 1
  · subst hr
    by_cases hnc : n + 1 ≤ c
    · have h3 : c < n + 1 + (effort.length + 1 - (n + 1)) := by omega
      have h4 : c + 1 - (n + 1) = c - n := by omega
      simp only [rowPartial, hnc, h3, and_self, if_true, hprev, hcur, h4, true_and]
      simp [upTo, rowVal, hnc]
    · simp [rowPartial, upTo, rowVal, hnc]
  · by_cases hle : r ≤ n
    · have : r ≤ n + 1 := by omega
      simp [rowPartial, upTo, hr, hle, this]
    · have : ¬ r ≤ n + 1 := by omega
      simp [rowPartial, upTo, hr, hle, this]

theorem forUp_fillRow (effort : List Int) (R : Nat) :
    ∀ n : Nat, n < R →
      forUp (fillRow effort effort.length) 1 n (tab R (effort.length + 1) (upTo effort 0)) =
        some (tab R (effort.length + 1) (upTo effort n)) := by
  intro n
  induction n with
  | zero =>
    intro _
    simp [forUp]
  | succ n ih =>
    intro hn
    rw [forUp_succ_last, ih (by omega)]
    simp only [Option.some_bind]
    have h1 : 1 + n = n + 1 := by omega
    rw [h1, fillRow_tab effort R (n + 1) _ (by omega) hn, rowPartial_upTo]

theorem replicate_eq_tab (R C : Nat) (v : Int) :
    List.replicate R (List.replicate C v) = tab R C (fun _ _ => v) := by
  simp [tab, rowOf]

theorem fillTable_eq (effort : List Int) (K : Nat) :
    fillTable effort effort.length (K : Int) =
      some (tab (K + 1) (effort.length + 1) (rowVal effort)) := by
  have hneg : ¬ ((K : Int) + 1 < 0) := by omega
  have hrows : ((K : Int) + 1).toNat = K + 1 := by omega
  have hinit : tab (K + 1) (effort.length + 1)
      (Function.update (fun _ _ => INT_MAX) 0 (Function.update (fun _ => INT_MAX) 0 0)) =
      tab (K + 1) (effort.length + 1) (upTo effort 0) := by
    apply tab_congr
    intro r c _ _
    by_cases hr : r = 0
    · subst hr
      by_cases hc : c = 0
      · subst hc; simp [upTo, rowVal]
      · simp [upTo, rowVal, hc, Function.update_noteq hc]
    · simp [upTo, hr, Function.update_noteq hr]
  have hfin : tab (K + 1) (effort.length + 1) (upTo effort K) =
      tab (K + 1) (effort.length + 1) (rowVal effort) := by
    apply tab_congr
    intro r c hr _
    have : r ≤ K := by omega
    simp [upTo, this]
  have e1 : vget (tab (K + 1) (effort.length + 1) (fun _ _ => INT_MAX)) 0 =
      some (rowOf (effort.length + 1) (fun _ => INT_MAX)) := by
    have h := vget_natCast (tab (K + 1) (effort.length + 1) (fun _ _ => INT_MAX)) 0
    rw [tab_get _ _ _ 0 (by omega)] at h
    simpa using h
  have e2 : vset (rowOf (effort.length + 1) (fun _ => INT_MAX)) 0 0 =
      some (rowOf (effort.length + 1) (Function.update (fun _ => INT_MAX) 0 0)) := by
    simpa using vset_rowOf (effort.length + 1) (fun _ => INT_MAX) 0 0 (by omega)
  have e3 : vset (tab (K + 1) (effort.length + 1) (fun _ _ => INT_MAX)) 0
        (rowOf (effort.length + 1) (Function.update (fun _ => INT_MAX) 0 0)) =
      some (tab (K + 1) (effort.length + 1)
        (Function.update (fun _ _ => INT_MAX) 0 (Function.update (fun _ => INT_MAX) 0 0))) := by
    simpa using vset_tab (K + 1) (effort.length + 1) (fun _ _ => INT_MAX) 0
      (Function.update (fun _ => INT_MAX) 0 0) (by omega)
  unfold fillTable
  simp only [hneg, if_false, hrows, replicate_eq_tab, e1, e2, e3, Int.toNat_ofNat]
  rw [hinit, forUp_fillRow effort (K + 1) K (by omega), hfin]

theorem main_dp (effort : List Int) (K : Nat) (hN : K ≠ effort.length) (h1 : K ≠ 1) :
    main effort (K : Int) = some (rowVal effort K effort.length) := by
  have hN' : ¬ ((K : Int) = (effort.length : Int)) := by
    intro h; exact hN (by exact_mod_cast h)
  have h1' : ¬ ((K : Int) = 1) := by
    intro h; exact h1 (by exact_mod_cast h)
  unfold main
  simp only [hN', h1', if_false, fillTable_eq]
  rw [vget_natCast, tab_get _ _ _ K (by omega)]
  simp only []
  rw [vget_natCast, rowOf_get _ _ _ (by omega)]

/-! ## Cuts and their costs -/

theorem foldl_max_max (l : List Int) : ∀ a b : Int,
    l.foldl max (max a b) = max (l.foldl max b) a := by
  induction l with
  | nil => intro a b; simp [max_comm]
  | cons x xs ih =>
    intro a b
    simp only [List.foldl_cons]
    rw [max_assoc, ih]

theorem groupMax_cons (e : Int) (rest : List Int) (he : 0 ≤ e) :
    groupMax (e :: rest) = max (groupMax rest) e := by
  cases rest with
  | nil => simp [groupMax, he]
  | cons y ys =>
    simp only [groupMax, List.foldl_cons]
    exact foldl_max_max ys e y

theorem groupMax_bounds (g : List Int) (h : ∀ x ∈ g, 0 ≤ x) :
    0 ≤ groupMax g ∧ groupMax g ≤ g.sum := by
  induction g with
  | nil => simp [groupMax]
  | cons e rest ih =>
    have he : 0 ≤ e := h e (by simp)
    have hr := ih (fun x hx => h x (by simp [hx]))
    rw [groupMax_cons e rest he, List.sum_cons]
    constructor
    · exact le_max_of_le_right he
    · apply max_le <;> omega

theorem cost_nil : cost [] = 0 := by simp [cost]

theorem cost_cons (g : List Int) (gs : List (List Int)) :
    cost (g :: gs) = groupMax g + cost gs := by
  simp [cost]

theorem cost_append (a b : List (List Int)) : cost (a ++ b) = cost a + cost b := by
  simp [cost]

theorem cost_bounds (gs : List (List Int)) (h : ∀ x ∈ gs.flatten, 0 ≤ x) :
    0 ≤ cost gs ∧ cost gs ≤ gs.flatten.sum := by
  induction gs with
  | nil => simp [cost]
  | cons g gs ih =>
    have hg := groupMax_bounds g (fun x hx => h x (by simp [hx]))
    have hr := ih (fun x hx => h x (by
      simp only [List.flatten_cons, List.mem_append]; exact Or.inr hx))
    rw [cost_cons, List.flatten_cons, List.sum_append]
    omega

theorem sum_take_le (l : List Int) (h : ∀ x ∈ l, 0 ≤ x) (i : Nat) :
    (l.take i).sum ≤ l.sum := by
  have h1 := List.sum_take_add_sum_drop l i
  have h2 : 0 ≤ (l.drop i).sum :=
    List.sum_nonneg (fun x hx => h x (List.mem_of_mem_drop hx))
  omega

theorem length_le_of_nonempty (gs : List (List Int)) (h : ∀ g ∈ gs, g ≠ []) :
    gs.length ≤ gs.flatten.length := by
  induction gs with
  | nil => simp
  | cons g gs ih =>
    have hg : g ≠ [] := h g (by simp)
    have hl : 0 < g.length := List.length_pos.mpr hg
    have hr := ih (fun g' hg' => h g' (by simp [hg']))
    simp only [List.length_cons, List.flatten_cons, List.length_append]
    omega

theorem IsCut.length_le {effort : List Int} {K : Nat} {gs : List (List Int)}
    (h : IsCut effort K gs) : K ≤ effort.length := by
  obtain ⟨h1, h2, h3⟩ := h
  rw [← h1, ← h2]
  exact length_le_of_nonempty gs h3

theorem take_take_of_le (l : List Int) (m i : Nat) (h : m ≤ i) :
    (l.take i).take m = l.take m := by
  rw [List.take_take, Nat.min_eq_left h]

theorem IsCut.snoc {effort : List Int} {k m i : Nat} {init : List (List Int)}
    (h : IsCut (effort.take m) k init) (hmi : m < i) (hi : i ≤ effort.length) :
    IsCut (effort.take i) (k + 1) (init ++ [(effort.take i).drop m]) := by
  obtain ⟨h1, h2, h3⟩ := h
  refine ⟨?_, ?_, ?_⟩
  · rw [List.flatten_append, h1]
    simp only [List.flatten_cons, List.flatten_nil, List.append_nil]
    rw [← take_take_of_le effort m i (by omega), List.take_append_drop]
  · simp [h2]
  · intro g hg
    rcases List.mem_append.mp hg with hg | hg
    · exact h3 g hg
    · have : g = (effort.take i).drop m := by simpa using hg
      subst this
      apply List.ne_nil_of_length_pos
      rw [List.length_drop, List.length_take]
      omega

theorem IsCut.unsnoc {effort : List Int} {k i : Nat} {gs : List (List Int)}
    (h : IsCut (effort.take i) (k + 1) gs) (hi : i ≤ effort.length) :
    ∃ init m, k ≤ m ∧ m < i ∧ gs = init ++ [(effort.take i).drop m] ∧
      IsCut (effort.take m) k init := by
  obtain ⟨h1, h2, h3⟩ := h
  have hne : gs ≠ [] := by
    intro h0; rw [h0] at h2; simp at h2
  obtain ⟨init, g, rfl⟩ : ∃ init g, gs = init ++ [g] :=
    ⟨gs.dropLast, gs.getLast hne, (List.dropLast_append_getLast hne).symm⟩
  have hfl : init.flatten ++ g = effort.take i := by
    rw [← h1, List.flatten_append]; simp
  have hg : g ≠ [] := h3 g (by simp)
  have hgl : 0 < g.length := List.length_pos.mpr hg
  have hlen : init.flatten.length + g.length = i := by
    have := congrArg List.length hfl
    rw [List.length_append, List.length_take] at this
    omega
  have htake : init.flatten = effort.take init.flatten.length := by
    rw [← take_take_of_le effort init.flatten.length i (by omega), ← hfl]
    simp
  have hdrop : g = (effort.take i).drop init.flatten.length := by
    rw [← hfl]; simp
  have hcut : IsCut (effort.take init.flatten.length) k init := by
    refine ⟨htake, ?_, fun g' hg' => h3 g' (by simp [hg'])⟩
    simp at h2
    exact h2
  refine ⟨init, init.flatten.length, ?_, by omega, ?_, hcut⟩
  · have := hcut.length_le
    rw [List.length_take] at this
    omega
  · rw [← hdrop]

theorem wrap32_eq (x : Int) (h0 : 0 ≤ x) (h1 : x < INT_MAX) : wrap32 x = x := by
  unfold wrap32
  unfold INT_MAX at h1
  omega

theorem drop_pred_take (effort : List Int) (hi i : Nat) (h1 : 1 ≤ hi) (h2 : hi ≤ i)
    (h3 : i ≤ effort.length) :
    (effort.take i).drop (hi - 1) = effort.getD (hi - 1) 0 :: (effort.take i).drop hi := by
  have hlt : hi - 1 < (effort.take i).length := by
    rw [List.length_take]; omega
  rw [List.drop_eq_getElem_cons hlt]
  have e1 : hi - 1 + 1 = hi := by omega
  rw [e1]
  congr 1
  rw [List.getElem_take, List.getD_eq_getElem?_getD, List.getElem?_eq_getElem (by omega)]
  simp

/-! ## The recurrence computes minimum costs -/

theorem getD_nonneg (l : List Int) (h : ∀ x ∈ l, 0 ≤ x) (n : Nat) : 0 ≤ l.getD n 0 := by
  rw [List.getD_eq_getElem?_getD]
  by_cases hn : n < l.length
  · rw [List.getElem?_eq_getElem hn]
    exact h _ (List.getElem_mem hn)
  · rw [List.getElem?_eq_none (by omega)]
    simp

theorem snoc_cost_nonneg (effort : List Int) (hpos : ∀ x ∈ effort, 0 ≤ x) {k m i : Nat}
    {init : List (List Int)} (h : IsCut (effort.take m) k init) (hmi : m < i)
    (hi : i ≤ effort.length) :
    0 ≤ cost init + groupMax ((effort.take i).drop m) := by
  have hcut := h.snoc hmi hi
  have hb := cost_bounds (init ++ [(effort.take i).drop m]) (by
    rw [hcut.1]
    intro x hx
    exact hpos x (List.mem_of_mem_take hx))
  rw [cost_append, cost_cons, cost_nil, add_zero] at hb
  exact hb.1

theorem costsFit_of_sum (effort : List Int) (hpos : ∀ x ∈ effort, 0 ≤ x)
    (hsum : effort.sum < INT_MAX) (K : Nat) : CostsFit effort K := by
  intro k i gs _ _ hcut
  have hb := cost_bounds gs (by
    rw [hcut.1]; intro x hx; exact hpos x (List.mem_of_mem_take hx))
  rw [hcut.1] at hb
  have := sum_take_le effort hpos i
  omega

theorem cellStep_inv (effort : List Int) (hpos : ∀ x ∈ effort, 0 ≤ x) (k i : Nat)
    (hfit : CostsFit effort (k + 1)) (hiN : i ≤ effort.length) (prev : Nat → Int)
    (hprev : ∀ m, m < i → Good effort k m (prev m)) (hi : Nat) (h1 : 1 ≤ hi) (h2 : hi ≤ i)
    (st : Int × Int) (hinv : LoopInv effort k i hi st) :
    LoopInv effort k i (hi - 1) (cellStep effort prev hi st) := by
  obtain ⟨hmx, hach, hlow⟩ := hinv
  have hdrop := drop_pred_take effort hi i h1 h2 hiN
  have he : 0 ≤ effort.getD (hi - 1) 0 := getD_nonneg effort hpos _
  have hmx' : max st.2 (effort.getD (hi - 1) 0) = groupMax ((effort.take i).drop (hi - 1)) := by
    rw [hdrop, groupMax_cons _ _ he, hmx]
  have hgood := hprev (hi - 1) (by omega)
  unfold cellStep
  by_cases hp : prev (hi - 1) = INT_MAX
  · simp only [hp, ne_eq, not_true_eq_false, if_false]
    refine ⟨hmx', hach, ?_⟩
    intro init m hm hmi hcut
    by_cases hmeq : m = hi - 1
    · subst hmeq
      exfalso
      have hle := hgood.2 init hcut
      have := hfit k (hi - 1) init (by omega) (by omega) hcut
      omega
    · exact hlow init m (by omega) hmi hcut
  · obtain ⟨init0, hcut0, hcost0⟩ := hgood.1 hp
    have hb0 := snoc_cost_nonneg effort hpos hcut0 (by omega : hi - 1 < i) hiN
    have hb1 := hfit (k + 1) i _ (le_refl _) hiN (hcut0.snoc (by omega : hi - 1 < i) hiN)
    rw [cost_append, cost_cons, cost_nil, add_zero] at hb1
    rw [hcost0, ← hmx'] at hb0 hb1
    have hw : wrap32 (prev (hi - 1) + max st.2 (effort.getD (hi - 1) 0)) =
        prev (hi - 1) + max st.2 (effort.getD (hi - 1) 0) :=
      wrap32_eq _ hb0 hb1
    simp only [ne_eq, hp, not_false_eq_true, if_true, hw]
    refine ⟨hmx', ?_, ?_⟩
    · intro _
      rcases le_total st.1 (prev (hi - 1) + max st.2 (effort.getD (hi - 1) 0)) with hle | hle
      · rw [min_eq_left hle]
        apply hach
        intro hst
        omega
      · rw [min_eq_right hle]
        refine ⟨_, hcut0.snoc (by omega : hi - 1 < i) hiN, ?_⟩
        rw [cost_append, cost_cons, cost_nil, add_zero, hcost0, hmx']
    · intro init m hm hmi hcut
      by_cases hmeq : m = hi - 1
      · subst hmeq
        have hle := hgood.2 init hcut
        rw [hmx']
        have := min_le_right st.1 (prev (hi - 1) + groupMax ((effort.take i).drop (hi - 1)))
        omega
      · have := hlow init m (by omega) hmi hcut
        exact le_trans (min_le_left _ _) this

theorem cellLoop_inv (effort : List Int) (hpos : ∀ x ∈ effort, 0 ≤ x) (k i : Nat)
    (hfit : CostsFit effort (k + 1)) (hiN : i ≤ effort.length) (prev : Nat → Int)
    (hprev : ∀ m, m < i → Good effort k m (prev m)) :
    ∀ (n hi : Nat) (st : Int × Int), n ≤ hi → hi ≤ i → LoopInv effort k i hi st →
      LoopInv effort k i (hi - n) (cellLoop effort prev hi n st) := by
  intro n
  induction n with
  | zero =>
    intro hi st _ _ h
    simpa [cellLoop] using h
  | succ n ih =>
    intro hi st hn hhi h
    have hstep := cellStep_inv effort hpos k i hfit hiN prev hprev hi (by omega) hhi st h
    have := ih (hi - 1) _ (by omega) (by omega) hstep
    have e : hi - 1 - n = hi - (n + 1) := by omega
    rw [e] at this
    simpa [cellLoop] using this

theorem CostsFit.mono {effort : List Int} {K K' : Nat} (h : CostsFit effort K) (hle : K' ≤ K) :
    CostsFit effort K' :=
  fun k i gs hk hi hcut => h k i gs (le_trans hk hle) hi hcut

theorem rowVal_good (effort : List Int) (hpos : ∀ x ∈ effort, 0 ≤ x) :
    ∀ k i : Nat, CostsFit effort k → i ≤ effort.length → Good effort k i (rowVal effort k i) := by
  intro k
  induction k with
  | zero =>
    intro i _ hi
    by_cases h0 : i = 0
    · subst h0
      refine ⟨fun _ => ⟨[], ⟨by simp, rfl, by simp⟩, by simp [rowVal, cost]⟩, ?_⟩
      intro gs hcut
      have : gs = [] := List.length_eq_zero.mp hcut.2.1
      subst this
      simp [rowVal, cost]
    · refine ⟨fun h => absurd (by simp [rowVal, h0]) h, ?_⟩
      intro gs hcut
      exfalso
      have hgs : gs = [] := List.length_eq_zero.mp hcut.2.1
      have hfl := congrArg List.length hcut.1
      rw [hgs, List.length_take] at hfl
      simp at hfl
      omega
  | succ k ih =>
    intro i hfit hi
    by_cases hki : k + 1 ≤ i
    · have hval : rowVal effort (k + 1) i =
          (cellLoop effort (rowVal effort k) i (i - k) (INT_MAX, 0)).1 := by
        simp [rowVal, hki]
      have hstart : LoopInv effort k i i (INT_MAX, 0) := by
        refine ⟨?_, fun h => absurd rfl h, ?_⟩
        · have : (effort.take i).drop i = [] := by
            apply List.drop_eq_nil_of_le
            rw [List.length_take]; omega
          rw [this]; rfl
        · intro init m h1 h2
          omega
      have hend := cellLoop_inv effort hpos k i hfit hi (rowVal effort k)
        (fun m hm => ih m (hfit.mono (by omega)) (by omega)) (i - k) i (INT_MAX, 0) (by omega)
        (le_refl i) hstart
      have e : i - (i - k) = k := by omega
      rw [e] at hend
      rw [hval]
      refine ⟨hend.2.1, ?_⟩
      intro gs hcut
      obtain ⟨init, m, hkm, hmi, rfl, hinit⟩ := hcut.unsnoc hi
      have := hend.2.2 init m hkm hmi hinit
      rw [cost_append, cost_cons, cost_nil, add_zero]
      exact this
    · have hval : rowVal effort (k + 1) i = INT_MAX := by
        simp [rowVal, hki]
      rw [hval]
      refine ⟨fun h => absurd rfl h, ?_⟩
      intro gs hcut
      exfalso
      have := hcut.length_le
      rw [List.length_take] at this
      omega

theorem exists_cut : ∀ (K : Nat) (l : List Int), 1 ≤ K → K ≤ l.length → ∃ gs, IsCut l K gs := by
  intro K
  induction K with
  | zero => intro l h; omega
  | succ K ih =>
    intro l _ hl
    by_cases hK : K = 0
    · subst hK
      refine ⟨[l], by simp, rfl, ?_⟩
      intro g hg
      have : g = l := by simpa using hg
      subst this
      apply List.ne_nil_of_length_pos
      omega
    · cases l with
      | nil => simp at hl
      | cons x xs =>
        obtain ⟨gs, h1, h2, h3⟩ := ih xs (by omega) (by simpa using hl)
        refine ⟨[x] :: gs, by simp [h1], by simp [h2], ?_⟩
        intro g hg
        rcases List.mem_cons.mp hg with hg | hg
        · subst hg; simp
        · exact h3 g hg

theorem Good.isMinCost {effort : List Int} {k m : Nat} {v : Int}
    (h : Good effort k m v) (hfit : CostsFit effort k)
    (hk : 1 ≤ k) (hkm : k ≤ m) (hm : m ≤ effort.length) :
    IsMinCost (effort.take m) k v := by
  obtain ⟨gs, hgs⟩ := exists_cut k (effort.take m) hk (by rw [List.length_take]; omega)
  refine ⟨h.1 ?_, h.2⟩
  have hle := h.2 gs hgs
  have := hfit k m gs (le_refl k) hm hgs
  omega

theorem rowVal_isMinCost (effort : List Int) (hpos : ∀ x ∈ effort, 0 ≤ x) (k i : Nat)
    (hfit : CostsFit effort k) (hk : 1 ≤ k) (hki : k ≤ i)
    (hi : i ≤ effort.length) : IsMinCost (effort.take i) k (rowVal effort k i) :=
  (rowVal_good effort hpos k i hfit hi).isMinCost hfit hk hki hi

/-! ## The two shortcuts -/

theorem wrap32_of_range (x : Int) (h0 : -2147483648 ≤ x) (h1 : x ≤ 2147483647) :
    wrap32 x = x := by
  unfold wrap32
  omega

theorem wrap32_add (a x : Int) : wrap32 (wrap32 a + x) = wrap32 (a + x) := by
  unfold wrap32
  omega

theorem accumulate_wrap (l : List Int) : ∀ a : Int,
    accumulate l (wrap32 a) = wrap32 (a + l.sum) := by
  induction l with
  | nil => intro a; simp [accumulate]
  | cons x xs ih =>
    intro a
    have h := ih (a + x)
    unfold accumulate at h ⊢
    rw [List.foldl_cons, wrap32_add, h, List.sum_cons, add_assoc]

theorem accumulate_zero (l : List Int) : accumulate l 0 = wrap32 l.sum := by
  have h := accumulate_wrap l 0
  have h0 : wrap32 0 = 0 := by decide
  rw [h0, zero_add] at h
  exact h

theorem accumulate_eq_sum (l : List Int) (h0 : -2147483648 ≤ l.sum) (h1 : l.sum ≤ 2147483647) :
    accumulate l 0 = l.sum := by
  rw [accumulate_zero, wrap32_of_range _ h0 h1]

theorem max_element_cons (x : Int) (xs : List Int) :
    max_element (x :: xs) = some (groupMax (x :: xs)) := by
  have : (fun m y : Int => if m < y then y else m) = max := by
    funext m y
    rcases lt_trichotomy m y with h | h | h
    · simp [h, max_eq_right (le_of_lt h)]
    · subst h; simp
    · simp [not_lt.mpr (le_of_lt h), max_eq_left (le_of_lt h)]
  simp [max_element, groupMax, this]

theorem foldl_max_mem (l : List Int) : ∀ a : Int,
    l.foldl max a ∈ a :: l ∧ ∀ x ∈ a :: l, x ≤ l.foldl max a := by
  induction l with
  | nil => intro a; simp
  | cons y ys ih =>
    intro a
    obtain ⟨hm, hle⟩ := ih (max a y)
    rw [List.foldl_cons]
    constructor
    · rcases List.mem_cons.mp hm with h | h
      · rw [h]
        rcases le_total a y with hay | hay
        · rw [max_eq_right hay]; simp
        · rw [max_eq_left hay]; simp
      · simp [h]
    · intro x hx
      have hmax := hle (max a y) (by simp)
      rcases List.mem_cons.mp hx with h | h
      · rw [h]; exact le_trans (le_max_left a y) hmax
      · rcases List.mem_cons.mp h with h | h
        · rw [h]; exact le_trans (le_max_right a y) hmax
        · exact hle x (by simp [h])

theorem groupMax_largest (g : List Int) (hg : g ≠ []) :
    groupMax g ∈ g ∧ ∀ x ∈ g, x ≤ groupMax g := by
  cases g with
  | nil => exact absurd rfl hg
  | cons x xs => exact foldl_max_mem xs x

theorem isCut_singletons (l : List Int) : IsCut l l.length (l.map fun x => [x]) := by
  refine ⟨?_, by simp, ?_⟩
  · induction l with
    | nil => rfl
    | cons x xs ih => simp [ih]
  · intro g hg
    obtain ⟨x, _, rfl⟩ := List.mem_map.mp hg
    simp

theorem cost_singletons (l : List Int) : cost (l.map fun x => [x]) = l.sum := by
  induction l with
  | nil => rfl
  | cons x xs ih =>
    rw [List.map_cons, cost_cons, ih, List.sum_cons]
    rfl

theorem isCut_full_unique : ∀ (gs : List (List Int)) (l : List Int),
    IsCut l l.length gs → gs = l.map fun x => [x] := by
  intro gs
  induction gs with
  | nil =>
    intro l h
    have : l.length = 0 := h.2.1.symm
    rw [List.length_eq_zero.mp this]
    rfl
  | cons g gs ih =>
    intro l h
    obtain ⟨h1, h2, h3⟩ := h
    have hg : g ≠ [] := h3 g (by simp)
    have hrest : ∀ g' ∈ gs, g' ≠ [] := fun g' hg' => h3 g' (by simp [hg'])
    have hlen := length_le_of_nonempty gs hrest
    have hl : g.length + gs.flatten.length = l.length := by
      rw [← h1, List.flatten_cons, List.length_append]
    have hgl : 0 < g.length := List.length_pos.mpr hg
    simp only [List.length_cons] at h2
    have hg1 : g.length = 1 := by omega
    obtain ⟨x, rfl⟩ := List.length_eq_one.mp hg1
    have hl' : l = x :: gs.flatten := by rw [← h1]; simp
    have hcut : IsCut gs.flatten gs.flatten.length gs := ⟨rfl, by omega, hrest⟩
    have := ih gs.flatten hcut
    rw [hl', List.map_cons, ← this]

theorem isCut_one (l : List Int) (hl : l ≠ []) (gs : List (List Int)) :
    IsCut l 1 gs ↔ gs = [l] := by
  constructor
  · intro h
    obtain ⟨g, rfl⟩ := List.length_eq_one.mp h.2.1
    have := h.1
    simp at this
    rw [this]
  · intro h
    subst h
    refine ⟨by simp, rfl, ?_⟩
    intro g hg
    have : g = l := by simpa using hg
    rw [this]; exact hl

theorem main_full (effort : List Int) :
    main effort (effort.length : Int) = some (accumulate effort 0) := by
  simp [main]

theorem main_one (effort : List Int) (hN : effort.length ≠ 1) :
    main effort 1 = max_element effort := by
  have h : ¬ ((1 : Int) = (effort.length : Int)) := by
    intro h; exact hN (by exact_mod_cast h.symm)
  simp [main, h]

theorem isMinCost_full (effort : List Int) : IsMinCost effort effort.length effort.sum := by
  refine ⟨⟨_, isCut_singletons effort, cost_singletons effort⟩, ?_⟩
  intro gs hgs
  rw [isCut_full_unique gs effort hgs, cost_singletons]

theorem isMinCost_one (effort : List Int) (h : effort ≠ []) :
    IsMinCost effort 1 (groupMax effort) := by
  refine ⟨⟨[effort], (isCut_one effort h _).mpr rfl, by simp [cost]⟩, ?_⟩
  intro gs hgs
  rw [(isCut_one effort h gs).mp hgs]
  simp [cost]

theorem main_isMinCost (effort : List Int) (K : Nat) (hpos : ∀ x ∈ effort, 0 ≤ x)
    (hfit : CostsFit effort K) (h1 : 1 ≤ K) (hK : K ≤ effort.length) :
    ∃ r, main effort (K : Int) = some r ∧ IsMinCost effort K r := by
  by_cases hN : K = effort.length
  · subst hN
    have hs : effort.sum < INT_MAX := by
      have := hfit effort.length effort.length _ (le_refl _) (le_refl _)
        (by rw [List.take_length]; exact isCut_singletons effort)
      rw [cost_singletons] at this
      exact this
    have h0 : 0 ≤ effort.sum := List.sum_nonneg hpos
    refine ⟨effort.sum, ?_, isMinCost_full effort⟩
    rw [main_full, accumulate_eq_sum effort (by omega) (by unfold INT_MAX at hs; omega)]
  · by_cases hone : K = 1
    · subst hone
      cases effort with
      | nil => simp at hK
      | cons x xs =>
        refine ⟨groupMax (x :: xs), ?_, isMinCost_one _ (by simp)⟩
        rw [Nat.cast_one, main_one _ (fun h => hN h.symm), max_element_cons]
    · refine ⟨rowVal effort K effort.length, main_dp effort K hN hone, ?_⟩
      have := rowVal_isMinCost effort hpos K effort.length hfit h1 hK (le_refl _)
      rw [List.take_length] at this
      exact this

theorem main_isMinCost_of_sum (effort : List Int) (K : Nat) (hpos : ∀ x ∈ effort, 0 ≤ x)
    (hsum : effort.sum < 2147483647) (h1 : 1 ≤ K) (hK : K ≤ effort.length) :
    ∃ r, main effort (K : Int) = some r ∧ IsMinCost effort K r :=
  main_isMinCost effort K hpos (costsFit_of_sum effort hpos hsum K) h1 hK

theorem IsMinCost.unique {effort : List Int} {K : Nat} {a b : Int}
    (ha : IsMinCost effort K a) (hb : IsMinCost effort K b) : a = b := by
  obtain ⟨ga, hga, rfl⟩ := ha.1
  obtain ⟨gb, hgb, rfl⟩ := hb.1
  exact le_antisymm (ha.2 gb hgb) (hb.2 ga hga)

/-! ## Merging groups, constant sequences -/

theorem groupMax_append_le (g1 g2 : List Int) (h1 : ∀ x ∈ g1, 0 ≤ x) (h2 : ∀ x ∈ g2, 0 ≤ x) :
    groupMax (g1 ++ g2) ≤ groupMax g1 + groupMax g2 := by
  induction g1 with
  | nil =>
    simp [groupMax]
  | cons e r ih =>
    have he : 0 ≤ e := h1 e (by simp)
    have hr := ih (fun x hx => h1 x (by simp [hx]))
    have hg2 := (groupMax_bounds g2 h2).1
    rw [List.cons_append, groupMax_cons e _ he, groupMax_cons e r he]
    apply max_le
    · have := le_max_left (groupMax r) e
      omega
    · have := le_max_right (groupMax r) e
      omega

/-- Merging the first two groups of a cut into `K + 2` groups of non-negative efforts gives
a cut into `K + 1` groups that costs no more. -/
theorem IsCut.merge {effort : List Int} {K : Nat} {gs : List (List Int)}
    (h : IsCut effort (K + 2) gs) (hpos : ∀ x ∈ effort, 0 ≤ x) :
    ∃ gs', IsCut effort (K + 1) gs' ∧ cost gs' ≤ cost gs := by
  obtain ⟨h1, h2, h3⟩ := h
  match gs, h1, h2, h3 with
  | [], _, h2, _ => simp at h2
  | [_], _, h2, _ => simp at h2
  | g1 :: g2 :: rest, h1, h2, h3 =>
    have hm1 : ∀ x ∈ g1, 0 ≤ x := fun x hx => hpos x (by rw [← h1]; simp [hx])
    have hm2 : ∀ x ∈ g2, 0 ≤ x := fun x hx => hpos x (by rw [← h1]; simp [hx])
    refine ⟨(g1 ++ g2) :: rest, ⟨?_, ?_, ?_⟩, ?_⟩
    · rw [← h1]; simp
    · simp at h2 ⊢; omega
    · intro g hg
      rcases List.mem_cons.mp hg with hg | hg
      · subst hg
        have := h3 g1 (by simp)
        simp [this]
      · exact h3 g (by simp [hg])
    · have := groupMax_append_le g1 g2 hm1 hm2
      rw [cost_cons, cost_cons, cost_cons]
      omega

theorem groupMax_const (g : List Int) (c : Int) (hg : g ≠ []) (h : ∀ x ∈ g, x = c) :
    groupMax g = c :=
  h _ (groupMax_largest g hg).1

theorem cost_const (c : Int) (gs : List (List Int)) (hne : ∀ g ∈ gs, g ≠ [])
    (h : ∀ x ∈ gs.flatten, x = c) : cost gs = gs.length * c := by
  induction gs with
  | nil => simp [cost]
  | cons g gs ih =>
    have hg := groupMax_const g c (hne g (by simp)) (fun x hx => h x (by simp [hx]))
    have hr := ih (fun g' hg' => hne g' (by simp [hg'])) (fun x hx => h x (by
      simp only [List.flatten_cons, List.mem_append]; exact Or.inr hx))
    rw [cost_cons, hg, hr]
    simp only [List.length_cons]
    push_cast
    ring

theorem cost_cut_replicate (c : Int) (N i k : Nat) (gs : List (List Int))
    (h : IsCut ((List.replicate N c).take i) k gs) : cost gs = k * c := by
  have := cost_const c gs h.2.2 (by
    rw [h.1]
    intro x hx
    exact List.eq_of_mem_replicate (List.mem_of_mem_take hx))
  rw [this, h.2.1]

/-! ## The contract -/

/-- C1: for positive efforts whose sum is below `2^31 - 1` and `1 ≤ K ≤ N`, the program
prints a number, and that number is the minimum, over the cuts of `effort` into exactly `K`
contiguous non-empty groups, of the sum of the groups' maxima. -/
theorem main_is_min_partition_cost (effort : List Int) (K : Nat)
    (hpos : ∀ x ∈ effort, 0 < x) (hsum : effort.sum < 2147483647)
    (h1 : 1 ≤ K) (hK : K ≤ effort.length) :
    ∃ r, main effort (K : Int) = some r ∧ IsMinCost effort K r :=
  main_isMinCost_of_sum effort K (fun x hx => le_of_lt (hpos x hx)) hsum h1 hK

/-- C1 at `effort = [10, 20, 30]`, `K = 2`: the program prints `40`, the minimum cost. -/
theorem main_is_min_partition_cost_witness :
    (∀ x ∈ [(10 : Int), 20, 30], 0 < x) ∧ main [10, 20, 30] ((2 : Nat) : Int) = some 40 ∧
      IsMinCost [10, 20, 30] 2 40 := by
  obtain ⟨r, hr, hmin⟩ := main_is_min_partition_cost [10, 20, 30] 2
    (by decide) (by decide) (by decide) (by decide)
  have h40 : main [10, 20, 30] ((2 : Nat) : Int) = some 40 := by decide
  have hr40 : r = 40 := by
    rw [h40] at hr
    exact (Option.some.inj hr).symm
  subst hr40
  exact ⟨by decide, hr, hmin⟩

/-- C2: when `K = N` and the sum fits a 32-bit `int` (for every length, `N ≥ 1` included)
the program prints `sum(effort)`; the cut into singletons is a cut into `N` groups, it costs
`sum(effort)`, and it is the only cut into `N` contiguous non-empty groups. -/
theorem full_split_is_sum (effort : List Int)
    (hlo : -2147483648 ≤ effort.sum) (hhi : effort.sum ≤ 2147483647) :
    main effort (effort.length : Int) = some effort.sum ∧
      IsCut effort effort.length (effort.map fun x => [x]) ∧
      cost (effort.map fun x => [x]) = effort.sum ∧
      ∀ gs, IsCut effort effort.length gs → gs = effort.map fun x => [x] := by
  refine ⟨?_, isCut_singletons effort, cost_singletons effort, ?_⟩
  · rw [main_full, accumulate_eq_sum effort hlo hhi]
  · intro gs hgs
    exact isCut_full_unique gs effort hgs

/-- C2 at `effort = [1, 2, 3, 4, 5]`, `K = 5`: the program prints `15`. -/
theorem full_split_is_sum_witness :
    main [1, 2, 3, 4, 5] 5 = some 15 ∧ cost [[1], [2], [3], [4], [5]] = 15 := by
  have h := full_split_is_sum [1, 2, 3, 4, 5] (by decide) (by decide)
  exact ⟨h.1, h.2.2.1⟩

/-- C3: when `K = 1` and `N ≥ 1` (the efforts being 32-bit `int` values) the program
prints the largest element of `effort`. -/
theorem single_group_is_max (effort : List Int) (hN : 1 ≤ effort.length)
    (hrange : ∀ x ∈ effort, -2147483648 ≤ x ∧ x ≤ 2147483647) :
    ∃ r, main effort 1 = some r ∧ r ∈ effort ∧ ∀ x ∈ effort, x ≤ r := by
  cases effort with
  | nil => simp at hN
  | cons x xs =>
    by_cases hxs : xs = []
    · subst hxs
      have hx := hrange x (by simp)
      refine ⟨x, ?_, by simp, by simp⟩
      have h := main_full [x]
      have hs : ([x] : List Int).sum = x := by simp
      rw [accumulate_eq_sum [x] (by rw [hs]; exact hx.1) (by rw [hs]; exact hx.2), hs] at h
      simpa using h
    · have hlen : (x :: xs).length ≠ 1 := by
        intro h
        apply hxs
        apply List.length_eq_zero.mp
        simpa using h
      have hl := groupMax_largest (x :: xs) (by simp)
      exact ⟨groupMax (x :: xs), by rw [main_one _ hlen, max_element_cons], hl.1, hl.2⟩

/-- C3 at `effort = [1, 2, 3, 4, 5]`, `K = 1`: the program prints `5`. -/
theorem single_group_is_max_witness :
    main [1, 2, 3, 4, 5] 1 = some 5 ∧
      ∃ r, main [1, 2, 3, 4, 5] 1 = some r ∧ r ∈ [(1 : Int), 2, 3, 4, 5] ∧
        ∀ x ∈ [(1 : Int), 2, 3, 4, 5], x ≤ r :=
  ⟨by decide, single_group_is_max [1, 2, 3, 4, 5] (by decide) (by decide)⟩

/-- C4, as stated, fails: on `effort = [1, 1]` the program prints `1` for `K = 1` and `2`
for `K + 1 = 2`, so the result for `K` is not at least the result for `K + 1`. -/
theorem result_nonincreasing_fails :
    (∀ x ∈ [(1 : Int), 1], 0 < x) ∧ main [1, 1] 1 = some 1 ∧ main [1, 1] 2 = some 2 ∧
      ¬ ((1 : Int) ≥ 2) := by
  decide

/-- C4, amended: for positive efforts whose sum is below `2^31 - 1` and `1 ≤ K < N`, the
result for `K` groups is at most the result for `K + 1` groups. -/
theorem result_nondecreasing_in_K (effort : List Int) (K : Nat)
    (hpos : ∀ x ∈ effort, 0 < x) (hsum : effort.sum < 2147483647)
    (h1 : 1 ≤ K) (hK : K < effort.length) :
    ∃ a b, main effort (K : Int) = some a ∧ main effort ((K + 1 : Nat) : Int) = some b ∧
      a ≤ b := by
  have hnn : ∀ x ∈ effort, 0 ≤ x := fun x hx => le_of_lt (hpos x hx)
  obtain ⟨a, ha, hamin⟩ := main_isMinCost_of_sum effort K hnn hsum h1 (by omega)
  obtain ⟨b, hb, hbmin⟩ := main_isMinCost_of_sum effort (K + 1) hnn hsum (by omega) (by omega)
  refine ⟨a, b, ha, hb, ?_⟩
  obtain ⟨gs, hgs, hcost⟩ := hbmin.1
  obtain ⟨m, rfl⟩ : ∃ m, K = m + 1 := ⟨K - 1, by omega⟩
  obtain ⟨gs', hgs', hle⟩ := hgs.merge hnn
  have := hamin.2 gs' hgs'
  omega

/-- C4 amended, at `effort = [1, 1]`, `K = 1`: the results are `1` and `2`. -/
theorem result_nondecreasing_in_K_witness :
    (∀ x ∈ [(1 : Int), 1], 0 < x) ∧
      ∃ a b, main [1, 1] ((1 : Nat) : Int) = some a ∧
        main [1, 1] ((1 + 1 : Nat) : Int) = some b ∧ a ≤ b :=
  ⟨by decide, result_nondecreasing_in_K [1, 1] 1 (by decide) (by decide) (by decide) (by decide)⟩

/-- C5, as stated, fails: on `effort = [5, 1, 5, 1, 5]`, `K = 3` the program does not print
`15`, and `15` is not the minimum cost: the cut `{5}{1}{5,1,5}` costs `11`. -/
theorem scenario_five_not_15 :
    main [5, 1, 5, 1, 5] 3 ≠ some 15 ∧ ¬ IsMinCost [5, 1, 5, 1, 5] 3 15 := by
  refine ⟨by decide, ?_⟩
  intro h
  have hcut : IsCut [5, 1, 5, 1, 5] 3 [[5], [1], [5, 1, 5]] := ⟨rfl, rfl, by decide⟩
  have := h.2 _ hcut
  revert this
  decide

/-- C5, amended: on `effort = [5, 1, 5, 1, 5]`, `K = 3` the program prints `11`, and `11` is
the minimum cost over the cuts into 3 contiguous non-empty groups; `{5}{1}{5,1,5}` is a
best cut, while `{5}{1,5}{1,5}` is a cut of cost `15`. -/
theorem scenario_five_is_11 :
    main [5, 1, 5, 1, 5] 3 = some 11 ∧ IsMinCost [5, 1, 5, 1, 5] 3 11 ∧
      IsCut [5, 1, 5, 1, 5] 3 [[5], [1], [5, 1, 5]] ∧ cost [[5], [1], [5, 1, 5]] = 11 ∧
      IsCut [5, 1, 5, 1, 5] 3 [[5], [1, 5], [1, 5]] ∧ cost [[5], [1, 5], [1, 5]] = 15 := by
  have hmain : main [5, 1, 5, 1, 5] ((3 : Nat) : Int) = some 11 := by decide
  obtain ⟨r, hr, hmin⟩ := main_isMinCost_of_sum [5, 1, 5, 1, 5] 3
    (by decide) (by decide) (by decide) (by decide)
  have hr11 : r = 11 := by
    rw [hmain] at hr
    exact (Option.some.inj hr).symm
  subst hr11
  exact ⟨hmain, hmin, ⟨rfl, rfl, by decide⟩, by decide, ⟨rfl, rfl, by decide⟩, by decide⟩

/-- C6: on the sequence of `N` copies of `c ≥ 1`, with `N * c` fitting a 32-bit `int` and
`1 ≤ K ≤ N`, the program prints `K * c`, and every cut into `K` contiguous non-empty
groups costs exactly `K * c`. -/
theorem constant_sequence (c : Int) (N K : Nat) (hc : 1 ≤ c) (h1 : 1 ≤ K) (hK : K ≤ N)
    (hfit : (N : Int) * c ≤ 2147483647) :
    main (List.replicate N c) (K : Int) = some ((K : Int) * c) ∧
      ∀ gs, IsCut (List.replicate N c) K gs → cost gs = (K : Int) * c := by
  have hcosts : ∀ gs, IsCut (List.replicate N c) K gs → cost gs = (K : Int) * c := by
    intro gs hgs
    apply cost_cut_replicate c N N K gs
    rw [List.take_of_length_le (by simp)]
    exact hgs
  refine ⟨?_, hcosts⟩
  have hlen : (List.replicate N c).length = N := by simp
  have hsum : (List.replicate N c).sum = (N : Int) * c := by
    rw [List.sum_replicate]; simp
  by_cases hKN : K = N
  · subst hKN
    have h := main_full (List.replicate K c)
    rw [hlen] at h
    have h0 : 0 ≤ (K : Int) * c := mul_nonneg (by omega) (by omega)
    rw [h, accumulate_eq_sum _ (by rw [hsum]; omega) (by rw [hsum]; exact hfit), hsum]
  · have hnn : ∀ x ∈ List.replicate N c, 0 ≤ x := by
      intro x hx
      rw [List.eq_of_mem_replicate hx]; omega
    have hcf : CostsFit (List.replicate N c) K := by
      intro k i gs hk _ hcut
      rw [cost_cut_replicate c N i k gs hcut]
      have hk1 : (k : Int) * c ≤ (K : Int) * c :=
        mul_le_mul_of_nonneg_right (by exact_mod_cast hk) (by omega)
      have hK1 : ((K : Int) + 1) * c ≤ (N : Int) * c :=
        mul_le_mul_of_nonneg_right (by omega) (by omega)
      have hexp : ((K : Int) + 1) * c = (K : Int) * c + c := by ring
      unfold INT_MAX
      omega
    obtain ⟨r, hr, hmin⟩ := main_isMinCost (List.replicate N c) K hnn hcf h1 (by rw [hlen]; exact hK)
    obtain ⟨gs, hgs, hcost⟩ := hmin.1
    rw [hr, ← hcost, hcosts gs hgs]

/-- C6 at `effort = [4, 4, 4, 4]`, `K = 2`: the program prints `8`. -/
theorem constant_sequence_witness :
    main [4, 4, 4, 4] 2 = some 8 ∧ ∀ gs, IsCut [4, 4, 4, 4] 2 gs → cost gs = 8 := by
  have h := constant_sequence 4 4 2 (by decide) (by decide) (by decide) (by decide)
  exact ⟨h.1, h.2⟩

/-- C7: reordering can change the result: `[2, 1, 3]` and its sorted rearrangement
`[1, 2, 3]` are permutations of each other, positive, and for `K = 2` the program prints
`5` on the first and `4` on the second. -/
theorem permutation_sensitive :
    ∃ (effort effort' : List Int) (K : Nat),
      (∀ x ∈ effort, 0 < x) ∧ effort.Perm effort' ∧ effort'.Sorted (· ≤ ·) ∧
        1 ≤ K ∧ K ≤ effort.length ∧ main effort (K : Int) = some 5 ∧
        main effort' (K : Int) = some 4 ∧ main effort (K : Int) ≠ main effort' (K : Int) := by
  refine ⟨[2, 1, 3], [1, 2, 3], 2, by decide, ?_, by decide, by decide, by decide, by decide,
    by decide, by decide⟩
  exact List.Perm.swap 1 2 [3]

/-- C8: on every valid input (`1 ≤ K ≤ N`, hence `N ≥ 1`) the run is defined and prints a
number: no checked vector access of the program fails, `max_element` sees a non-empty
vector, and in the table branch the table is filled completely. -/
theorem main_defined (effort : List Int) (K : Nat) (h1 : 1 ≤ K) (hK : K ≤ effort.length) :
    (∃ r, main effort (K : Int) = some r) ∧
      (K = 1 → ∃ r, max_element effort = some r) ∧
      ∃ dp, fillTable effort effort.length (K : Int) = some dp := by
  refine ⟨?_, ?_, ⟨_, fillTable_eq effort K⟩⟩
  · by_cases hN : K = effort.length
    · subst hN
      exact ⟨_, main_full effort⟩
    · by_cases hone : K = 1
      · subst hone
        cases effort with
        | nil => simp at hK
        | cons x xs =>
          refine ⟨groupMax (x :: xs), ?_⟩
          rw [Nat.cast_one, main_one _ (fun h => hN h.symm), max_element_cons]
      · exact ⟨_, main_dp effort K hN hone⟩
  · intro _
    cases effort with
    | nil => simp at hK; omega
    | cons x xs => exact ⟨_, max_element_cons x xs⟩

/-- C8 at `effort = [7, -3, 7, 2]`, `K = 2`: the run is defined. -/
theorem main_defined_witness :
    (∃ r, main [7, -3, 7, 2] ((2 : Nat) : Int) = some r) ∧
      ∃ dp, fillTable [7, -3, 7, 2] 4 ((2 : Nat) : Int) = some dp :=
  have h := main_defined [7, -3, 7, 2] 2 (by decide) (by decide)
  ⟨h.1, h.2.2⟩

/-- C9, as stated, fails: on `effort = [-1, -1, -1]`, `K = 2` the program prints `0`, which
is not the minimum cost (the cut `{-1}{-1,-1}` costs `-2`): the running maximum of the
table branch starts at `0`. -/
theorem negative_efforts_fail :
    main [-1, -1, -1] 2 = some 0 ∧ ¬ IsMinCost [-1, -1, -1] 2 0 := by
  refine ⟨by decide, ?_⟩
  intro h
  have hcut : IsCut [-1, -1, -1] 2 [[-1], [-1, -1]] := ⟨rfl, rfl, by decide⟩
  have := h.2 _ hcut
  revert this
  decide

/-- C9, amended: the efforts may be zero but not negative: for non-negative efforts whose
sum is below `2^31 - 1` and `1 ≤ K ≤ N`, the program prints the minimum, over the cuts into
`K` contiguous non-empty groups, of the sum of the groups' maxima. -/
theorem main_min_cost_nonneg (effort : List Int) (K : Nat)
    (hnn : ∀ x ∈ effort, 0 ≤ x) (hsum : effort.sum < 2147483647)
    (h1 : 1 ≤ K) (hK : K ≤ effort.length) :
    ∃ r, main effort (K : Int) = some r ∧ IsMinCost effort K r :=
  main_isMinCost effort K hnn (costsFit_of_sum effort hnn hsum K) h1 hK

/-- C9 amended, at `effort = [0, 3, 0, 0]`, `K = 2`: the program prints `3`. -/
theorem main_min_cost_nonneg_witness :
    (∀ x ∈ [(0 : Int), 3, 0, 0], 0 ≤ x) ∧ main [0, 3, 0, 0] ((2 : Nat) : Int) = some 3 ∧
      IsMinCost [0, 3, 0, 0] 2 3 := by
  obtain ⟨r, hr, hmin⟩ := main_min_cost_nonneg [0, 3, 0, 0] 2
    (by decide) (by decide) (by decide) (by decide)
  have h3 : main [0, 3, 0, 0] ((2 : Nat) : Int) = some 3 := by decide
  have hr3 : r = 3 := by
    rw [h3] at hr
    exact (Option.some.inj hr).symm
  subst hr3
  exact ⟨by decide, hr, hmin⟩

/-- C10: in the table branch (`1 < K < N`, positive efforts with sum below `2^31 - 1`) the
loops finish with a table `dp` in which, for `1 ≤ k ≤ K` and `k ≤ i ≤ N`, the entry
`dp[k][i]` is the minimum cost of a cut of the first `i` elements into exactly `k`
contiguous non-empty groups; the program prints `dp[K][N]` of that table. -/
theorem table_entries_are_min (effort : List Int) (K : Nat)
    (hpos : ∀ x ∈ effort, 0 < x) (hsum : effort.sum < 2147483647)
    (h1 : 1 < K) (hK : K < effort.length) :
    ∃ dp, fillTable effort effort.length (K : Int) = some dp ∧
      main effort (K : Int) =
        (vget dp (K : Int)).bind (fun row => vget row (effort.length : Int)) ∧
      ∀ k i : Nat, 1 ≤ k → k ≤ K → k ≤ i → i ≤ effort.length →
        ∃ row v, vget dp (k : Int) = some row ∧ vget row (i : Int) = some v ∧
          IsMinCost (effort.take i) k v := by
  have hnn : ∀ x ∈ effort, 0 ≤ x := fun x hx => le_of_lt (hpos x hx)
  refine ⟨_, fillTable_eq effort K, ?_, ?_⟩
  · rw [main_dp effort K (by omega) (by omega), vget_natCast, tab_get _ _ _ K (by omega)]
    simp only [Option.some_bind]
    rw [vget_natCast, rowOf_get _ _ _ (by omega)]
  intro k i hk1 hkK hki hiN
  refine ⟨rowOf (effort.length + 1) (rowVal effort k), rowVal effort k i, ?_, ?_, ?_⟩
  · rw [vget_natCast, tab_get _ _ _ k (by omega)]
  · rw [vget_natCast, rowOf_get _ _ i (by omega)]
  · exact rowVal_isMinCost effort hnn k i (costsFit_of_sum effort hnn hsum k) hk1 hki hiN

/-- C10 at `effort = [10, 20, 30]`, `K = 2`: the filled table, whose rows 1 and 2 hold the
minimum costs of the prefixes. -/
theorem table_entries_are_min_witness :
    fillTable [10, 20, 30] 3 ((2 : Nat) : Int) =
        some [[0, 2147483647, 2147483647, 2147483647], [2147483647, 10, 20, 30],
          [2147483647, 2147483647, 30, 40]] ∧
      ∃ dp, fillTable [10, 20, 30] 3 ((2 : Nat) : Int) = some dp ∧
        main [10, 20, 30] ((2 : Nat) : Int) =
          (vget dp ((2 : Nat) : Int)).bind (fun row => vget row ((3 : Nat) : Int)) ∧
        ∀ k i : Nat, 1 ≤ k → k ≤ 2 → k ≤ i → i ≤ 3 →
          ∃ row v, vget dp (k : Int) = some row ∧ vget row (i : Int) = some v ∧
            IsMinCost (List.take i [10, 20, 30]) k v :=
  ⟨by decide, table_entries_are_min [10, 20, 30] 2 (by decide) (by decide) (by decide)
    (by decide)⟩

/-! ## Shape of the table, bounds, boundary cases -/

theorem tab_entry (R C : Nat) (f : Nat → Nat → Int) (k i : Nat) (hk : k < R) (hi : i < C) :
    vget (tab R C f) (k : Int) = some (rowOf C (f k)) ∧
      vget (rowOf C (f k)) (i : Int) = some (f k i) :=
  ⟨by rw [vget_natCast, tab_get R C f k hk], by rw [vget_natCast, rowOf_get C (f k) i hi]⟩

theorem mainNoShortcut_eq (effort : List Int) (K : Nat) :
    mainNoShortcut effort (K : Int) = some (rowVal effort K effort.length) := by
  have h := tab_entry (K + 1) (effort.length + 1) (rowVal effort) K effort.length
    (by omega) (by omega)
  unfold mainNoShortcut
  simp only [fillTable_eq, h.1, h.2]

theorem rowVal_zero (effort : List Int) (i : Nat) :
    rowVal effort 0 i = if i = 0 then 0 else INT_MAX := by
  simp [rowVal]

theorem rowVal_of_lt (effort : List Int) (k i : Nat) (h : i < k) :
    rowVal effort k i = INT_MAX := by
  cases k with
  | zero => omega
  | succ k =>
    have : ¬ (k + 1 ≤ i) := by omega
    simp [rowVal, this]

theorem rowVal_lt_sentinel (effort : List Int) (hnn : ∀ x ∈ effort, 0 ≤ x)
    (hsum : effort.sum < 2147483647) (k i : Nat) (hk : 1 ≤ k) (hki : k ≤ i)
    (hi : i ≤ effort.length) : rowVal effort k i < INT_MAX := by
  have hfit := costsFit_of_sum effort hnn hsum k
  obtain ⟨gs, hgs, hcost⟩ := (rowVal_isMinCost effort hnn k i hfit hk hki hi).1
  rw [← hcost]
  exact hfit k i gs (le_refl k) hi hgs

theorem rowVal_sentinel_iff (effort : List Int) (hnn : ∀ x ∈ effort, 0 ≤ x)
    (hsum : effort.sum < 2147483647) (k i : Nat) (hi : i ≤ effort.length) :
    rowVal effort k i = INT_MAX ↔ (i < k ∨ (k = 0 ∧ 0 < i)) := by
  by_cases hk0 : k = 0
  · subst hk0
    rw [rowVal_zero]
    by_cases hi0 : i = 0
    · subst hi0
      rw [if_pos rfl]
      constructor
      · intro h; exact absurd h (by decide)
      · intro h; omega
    · rw [if_neg hi0]
      constructor
      · intro _; right; exact ⟨rfl, by omega⟩
      · intro _; rfl
  · by_cases hki : k ≤ i
    · have := rowVal_lt_sentinel effort hnn hsum k i (by omega) hki hi
      constructor
      · intro h; omega
      · intro h; omega
    · have := rowVal_of_lt effort k i (by omega)
      constructor
      · intro _; left; omega
      · intro _; exact this

theorem elem_le_cost (gs : List (List Int)) (h : ∀ x ∈ gs.flatten, 0 ≤ x) :
    ∀ x ∈ gs.flatten, x ≤ cost gs := by
  induction gs with
  | nil => intro x hx; simp at hx
  | cons g gs ih =>
    have hg := groupMax_bounds g (fun x hx => h x (by simp [hx]))
    have hrest : ∀ x ∈ gs.flatten, 0 ≤ x := fun x hx => h x (by
      simp only [List.flatten_cons, List.mem_append]; exact Or.inr hx)
    have hr := cost_bounds gs hrest
    intro x hx
    rw [cost_cons]
    simp only [List.flatten_cons, List.mem_append] at hx
    rcases hx with hx | hx
    · have hne : g ≠ [] := List.ne_nil_of_mem hx
      have := (groupMax_largest g hne).2 x hx
      omega
    · have := ih hrest x hx
      omega

theorem entry_bounds (effort : List Int) (hnn : ∀ x ∈ effort, 0 ≤ x)
    (hsum : effort.sum < 2147483647) (k i : Nat) (hi : i ≤ effort.length)
    (hv : rowVal effort k i ≠ INT_MAX) :
    (∀ x ∈ effort.take i, x ≤ rowVal effort k i) ∧ rowVal effort k i ≤ (effort.take i).sum := by
  have hgood := rowVal_good effort hnn k i (costsFit_of_sum effort hnn hsum k) hi
  obtain ⟨gs, hgs, hcost⟩ := hgood.1 hv
  have hfl : ∀ x ∈ gs.flatten, 0 ≤ x := by
    rw [hgs.1]; intro x hx; exact hnn x (List.mem_of_mem_take hx)
  have h1 := elem_le_cost gs hfl
  have h2 := cost_bounds gs hfl
  rw [hgs.1] at h1 h2
  rw [← hcost]
  exact ⟨h1, h2.2⟩

theorem groupMax_reverse (g : List Int) : groupMax g.reverse = groupMax g := by
  by_cases hg : g = []
  · subst hg; rfl
  · have hr : g.reverse ≠ [] := by simpa using hg
    have h1 := groupMax_largest g hg
    have h2 := groupMax_largest g.reverse hr
    apply le_antisymm
    · exact h1.2 _ (List.mem_reverse.mp h2.1)
    · exact h2.2 _ (List.mem_reverse.mpr h1.1)

theorem cost_reverse (gs : List (List Int)) : cost (gs.map List.reverse).reverse = cost gs := by
  unfold cost
  rw [List.map_reverse, List.sum_reverse, List.map_map]
  congr 1
  apply List.map_congr_left
  intro g _
  exact groupMax_reverse g

theorem IsCut.reverseCut {effort : List Int} {K : Nat} {gs : List (List Int)}
    (h : IsCut effort K gs) : IsCut effort.reverse K (gs.map List.reverse).reverse := by
  obtain ⟨h1, h2, h3⟩ := h
  refine ⟨?_, by simpa using h2, ?_⟩
  · rw [← h1, List.reverse_flatten]
  · intro g hg
    obtain ⟨g', hg', rfl⟩ := List.mem_map.mp (List.mem_reverse.mp hg)
    have := h3 g' hg'
    simpa using this

theorem IsMinCost.reverseMin {effort : List Int} {K : Nat} {r : Int}
    (h : IsMinCost effort K r) : IsMinCost effort.reverse K r := by
  obtain ⟨⟨gs, hgs, hcost⟩, hlow⟩ := h
  refine ⟨⟨_, hgs.reverseCut, by rw [cost_reverse, hcost]⟩, ?_⟩
  intro gs' hgs'
  have hback := hgs'.reverseCut
  rw [List.reverse_reverse] at hback
  have := hlow _ hback
  rw [cost_reverse] at this
  exact this

/-- C11: for non-negative efforts with sum below `2^31 - 1` and `1 ≤ K ≤ N`, the table fill
ends with a table in which `dp[0][0] = 0`, an entry `dp[k][i]` (`k ≤ K`, `i ≤ N`) is the
sentinel `INT_MAX` exactly when `i < k` or (`k = 0` and `i > 0`), and `dp[K][N]` is not the
sentinel. -/
theorem feasibility_pattern (effort : List Int) (K : Nat)
    (hnn : ∀ x ∈ effort, 0 ≤ x) (hsum : effort.sum < 2147483647)
    (h1 : 1 ≤ K) (hK : K ≤ effort.length) :
    ∃ dp, fillTable effort effort.length (K : Int) = some dp ∧
      (∃ row, vget dp 0 = some row ∧ vget row 0 = some 0) ∧
      (∀ k i : Nat, k ≤ K → i ≤ effort.length →
        ∃ row v, vget dp (k : Int) = some row ∧ vget row (i : Int) = some v ∧
          (v = INT_MAX ↔ (i < k ∨ (k = 0 ∧ 0 < i)))) ∧
      ∃ row v, vget dp (K : Int) = some row ∧ vget row (effort.length : Int) = some v ∧
        v ≠ INT_MAX := by
  refine ⟨_, fillTable_eq effort K, ?_, ?_, ?_⟩
  · have h := tab_entry (K + 1) (effort.length + 1) (rowVal effort) 0 0 (by omega) (by omega)
    refine ⟨_, by simpa using h.1, ?_⟩
    have h2 := h.2
    rw [rowVal_zero, if_pos rfl] at h2
    simpa using h2
  · intro k i hk hi
    have h := tab_entry (K + 1) (effort.length + 1) (rowVal effort) k i (by omega) (by omega)
    exact ⟨_, _, h.1, h.2, rowVal_sentinel_iff effort hnn hsum k i hi⟩
  · have h := tab_entry (K + 1) (effort.length + 1) (rowVal effort) K effort.length
      (by omega) (by omega)
    have hlt := rowVal_lt_sentinel effort hnn hsum K effort.length h1 hK (le_refl _)
    exact ⟨_, _, h.1, h.2, by omega⟩

/-- C11 at `effort = [3, 0, 2]`, `K = 2`: the filled table and its sentinel pattern. -/
theorem feasibility_pattern_witness :
    fillTable [3, 0, 2] 3 ((2 : Nat) : Int) =
        some [[0, 2147483647, 2147483647, 2147483647], [2147483647, 3, 3, 3],
          [2147483647, 2147483647, 3, 5]] ∧
      ∃ dp, fillTable [3, 0, 2] 3 ((2 : Nat) : Int) = some dp ∧
        (∃ row, vget dp 0 = some row ∧ vget row 0 = some 0) ∧
        (∀ k i : Nat, k ≤ 2 → i ≤ 3 →
          ∃ row v, vget dp (k : Int) = some row ∧ vget row (i : Int) = some v ∧
            (v = INT_MAX ↔ (i < k ∨ (k = 0 ∧ 0 < i)))) ∧
        ∃ row v, vget dp ((2 : Nat) : Int) = some row ∧ vget row ((3 : Nat) : Int) = some v ∧
          v ≠ INT_MAX :=
  ⟨by decide, feasibility_pattern [3, 0, 2] 2 (by decide) (by decide) (by decide) (by decide)⟩

/-- C13: for `N ≥ 1` non-negative efforts with sum below `2^31 - 1`, the table fill alone
gives `dp[1][N] = max(effort)` for `K = 1` and `dp[N][N] = sum(effort)` for `K = N`, the
values of the two shortcuts, so the program without its shortcuts prints the same number
as the program for every `1 ≤ K ≤ N`. -/
theorem shortcuts_agree_with_table (effort : List Int) (hN : 1 ≤ effort.length)
    (hnn : ∀ x ∈ effort, 0 ≤ x) (hsum : effort.sum < 2147483647) :
    mainNoShortcut effort 1 = max_element effort ∧
      mainNoShortcut effort (effort.length : Int) = some (accumulate effort 0) ∧
      accumulate effort 0 = effort.sum ∧
      ∀ K : Nat, 1 ≤ K → K ≤ effort.length →
        mainNoShortcut effort (K : Int) = main effort (K : Int) := by
  have hne : effort ≠ [] := List.ne_nil_of_length_pos (by omega)
  have hacc : accumulate effort 0 = effort.sum :=
    accumulate_eq_sum effort (by have := List.sum_nonneg hnn; omega) (by omega)
  have hrow : ∀ K : Nat, 1 ≤ K → K ≤ effort.length →
      IsMinCost effort K (rowVal effort K effort.length) := by
    intro K h1 hK
    have := rowVal_isMinCost effort hnn K effort.length (costsFit_of_sum effort hnn hsum K)
      h1 hK (le_refl _)
    rw [List.take_length] at this
    exact this
  have hone : mainNoShortcut effort 1 = max_element effort := by
    have h := mainNoShortcut_eq effort 1
    rw [Nat.cast_one] at h
    rw [h, (hrow 1 (le_refl 1) hN).unique (isMinCost_one effort hne)]
    cases effort with
    | nil => exact absurd rfl hne
    | cons x xs => rw [max_element_cons]
  have hfull : mainNoShortcut effort (effort.length : Int) = some (accumulate effort 0) := by
    rw [mainNoShortcut_eq, (hrow effort.length hN (le_refl _)).unique (isMinCost_full effort),
      hacc]
  refine ⟨hone, hfull, hacc, ?_⟩
  intro K h1 hK
  by_cases hKN : K = effort.length
  · subst hKN
    rw [hfull, main_full]
  · by_cases hK1 : K = 1
    · subst hK1
      rw [Nat.cast_one, hone, main_one effort (fun h => hKN h.symm)]
    · rw [mainNoShortcut_eq, main_dp effort K hKN hK1]

/-- C13 at `effort = [2, 0, 7, 1]`: the table alone gives `7` for `K = 1` and `10` for
`K = 4`. -/
theorem shortcuts_agree_with_table_witness :
    mainNoShortcut [2, 0, 7, 1] 1 = some 7 ∧ mainNoShortcut [2, 0, 7, 1] 4 = some 10 ∧
      ∀ K : Nat, 1 ≤ K → K ≤ 4 →
        mainNoShortcut [2, 0, 7, 1] (K : Int) = main [2, 0, 7, 1] (K : Int) :=
  have h := shortcuts_agree_with_table [2, 0, 7, 1] (by decide) (by decide) (by decide)
  ⟨h.1, h.2.1, h.2.2.2⟩

/-- C14: for non-negative efforts with sum below `2^31 - 1` and `1 ≤ K < N`, the result for
`K` groups is at most the result for `K + 1` groups; the reason is that merging two adjacent
groups of non-negative values replaces their maxima `a`, `b` by at most `a + b`. -/
theorem result_monotone_nonneg (effort : List Int) (K : Nat)
    (hnn : ∀ x ∈ effort, 0 ≤ x) (hsum : effort.sum < 2147483647)
    (h1 : 1 ≤ K) (hK : K < effort.length) :
    (∃ a b, main effort (K : Int) = some a ∧ main effort ((K + 1 : Nat) : Int) = some b ∧
      a ≤ b) ∧
      ∀ g1 g2 : List Int, (∀ x ∈ g1, 0 ≤ x) → (∀ x ∈ g2, 0 ≤ x) →
        groupMax (g1 ++ g2) ≤ groupMax g1 + groupMax g2 := by
  refine ⟨?_, groupMax_append_le⟩
  obtain ⟨a, ha, hamin⟩ := main_isMinCost_of_sum effort K hnn hsum h1 (by omega)
  obtain ⟨b, hb, hbmin⟩ := main_isMinCost_of_sum effort (K + 1) hnn hsum (by omega) (by omega)
  refine ⟨a, b, ha, hb, ?_⟩
  obtain ⟨gs, hgs, hcost⟩ := hbmin.1
  obtain ⟨m, rfl⟩ : ∃ m, K = m + 1 := ⟨K - 1, by omega⟩
  obtain ⟨gs', hgs', hle⟩ := hgs.merge hnn
  have := hamin.2 gs' hgs'
  omega

/-- C14 at `effort = [4, 0, 0]`, `K = 2`: the results for `K = 2` and `K = 3` are `4`
and `4`. -/
theorem result_monotone_nonneg_witness :
    main [4, 0, 0] 2 = some 4 ∧ main [4, 0, 0] 3 = some 4 ∧
      ∃ a b, main [4, 0, 0] ((2 : Nat) : Int) = some a ∧
        main [4, 0, 0] ((2 + 1 : Nat) : Int) = some b ∧ a ≤ b :=
  ⟨by decide, by decide,
    (result_monotone_nonneg [4, 0, 0] 2 (by decide) (by decide) (by decide) (by decide)).1⟩

/-- C15: for non-negative efforts with sum below `2^31 - 1` and `1 ≤ K ≤ N`, the result lies
between `max(effort)` and `sum(effort)`, and every entry `dp[k][i]` of the filled table that
is not the sentinel is at least every one of the first `i` elements and at most their sum. -/
theorem result_bounds (effort : List Int) (K : Nat)
    (hnn : ∀ x ∈ effort, 0 ≤ x) (hsum : effort.sum < 2147483647)
    (h1 : 1 ≤ K) (hK : K ≤ effort.length) :
    (∃ m r, max_element effort = some m ∧ main effort (K : Int) = some r ∧
      m ≤ r ∧ r ≤ effort.sum) ∧
      ∃ dp, fillTable effort effort.length (K : Int) = some dp ∧
        ∀ k i : Nat, k ≤ K → i ≤ effort.length →
          ∃ row v, vget dp (k : Int) = some row ∧ vget row (i : Int) = some v ∧
            (v ≠ INT_MAX → (∀ x ∈ effort.take i, x ≤ v) ∧ v ≤ (effort.take i).sum) := by
  constructor
  · obtain ⟨r, hr, hmin⟩ := main_isMinCost_of_sum effort K hnn hsum h1 hK
    obtain ⟨gs, hgs, hcost⟩ := hmin.1
    have hfl : ∀ x ∈ gs.flatten, 0 ≤ x := by rw [hgs.1]; exact hnn
    have hb1 := elem_le_cost gs hfl
    have hb2 := cost_bounds gs hfl
    rw [hgs.1] at hb1 hb2
    cases effort with
    | nil => simp at hK; omega
    | cons x xs =>
      have hl := groupMax_largest (x :: xs) (by simp)
      refine ⟨groupMax (x :: xs), r, max_element_cons x xs, hr, ?_, ?_⟩
      · rw [← hcost]; exact hb1 _ hl.1
      · rw [← hcost]; exact hb2.2
  · refine ⟨_, fillTable_eq effort K, ?_⟩
    intro k i hk hi
    have h := tab_entry (K + 1) (effort.length + 1) (rowVal effort) k i (by omega) (by omega)
    exact ⟨_, _, h.1, h.2, entry_bounds effort hnn hsum k i hi⟩

/-- C15 at `effort = [3, 0, 2]`, `K = 2`: the result `5` lies between the maximum `3` and
the sum `5`. -/
theorem result_bounds_witness :
    max_element [3, 0, 2] = some 3 ∧ main [3, 0, 2] 2 = some 5 ∧
      ∃ m r, max_element [3, 0, 2] = some m ∧ main [3, 0, 2] ((2 : Nat) : Int) = some r ∧
        m ≤ r ∧ r ≤ ([3, 0, 2] : List Int).sum :=
  ⟨by decide, by decide,
    (result_bounds [3, 0, 2] 2 (by decide) (by decide) (by decide) (by decide)).1⟩

theorem fillTable32_eq (effort : List Int) (N : Nat) (K : Int) (hN : N < 2147483647)
    (hK1 : -2147483649 ≤ K) (hK2 : K < 2147483647) :
    fillTable32 effort N K = fillTable effort N K := by
  have hr : wrap32 (K + 1) = K + 1 := wrap32_of_range _ (by omega) (by omega)
  have hc : wrap32 ((N : Int) + 1) = (N : Int) + 1 := wrap32_of_range _ (by omega) (by omega)
  have hcn : ((N : Int) + 1).toNat = N + 1 := by omega
  have hcond : (K + 1 < 0 ∨ (N : Int) + 1 < 0) ↔ K + 1 < 0 := by
    constructor
    · intro h
      rcases h with h | h
      · exact h
      · omega
    · intro h; exact Or.inl h
  unfold fillTable32 fillTable
  simp only [hr, hc, hcn, hcond]

/-- Below `2^31 - 1` the sizes of line 27 do not overflow and `main32` is `main`. -/
theorem main32_eq_main (effort : List Int) (K : Int) (hN : effort.length < 2147483647)
    (hK1 : -2147483649 ≤ K) (hK2 : K < 2147483647) : main32 effort K = main effort K := by
  unfold main32 main
  simp only [fillTable32_eq effort effort.length K hN hK1 hK2]

/-- C17, as stated, fails: on `effort = [1, 2, 3]` (`N = 3`) and `K = 2147483647 > N` the
row count `K + 1` of line 27 overflows `int`, the `vector` constructor throws, and nothing
is printed. -/
theorem out_of_range_K_overflow :
    1 ≤ ([1, 2, 3] : List Int).length ∧
      ((([1, 2, 3] : List Int).length : Nat) : Int) < 2147483647 ∧
      fillTable32 [1, 2, 3] 3 2147483647 = none ∧ main32 [1, 2, 3] 2147483647 = none ∧
      main32 [1, 2, 3] 2147483647 ≠ some 2147483647 := by
  decide

/-- C17, amended: for a sequence of length `N ≥ 1` and `K = 0` or `K > N`, with `N` and `K`
below `2^31 - 1` so that the sizes `N + 1` and `K + 1` of line 27 are `int` values, the run
is defined (the table is built and no checked access fails) and the program prints the
sentinel `INT_MAX = 2147483647`. -/
theorem out_of_range_K_prints_sentinel (effort : List Int) (K : Int)
    (hN : 1 ≤ effort.length) (hNfit : effort.length < 2147483647)
    (hK : K = 0 ∨ (effort.length : Int) < K) (hKfit : K < 2147483647) :
    main32 effort K = some 2147483647 ∧
      ∃ dp, fillTable32 effort effort.length K = some dp := by
  have hK1 : -2147483649 ≤ K := by omega
  rw [main32_eq_main effort K hNfit hK1 hKfit, fillTable32_eq effort _ K hNfit hK1 hKfit]
  obtain ⟨n, rfl⟩ : ∃ n : Nat, K = (n : Int) := ⟨K.toNat, by omega⟩
  refine ⟨?_, ⟨_, fillTable_eq effort n⟩⟩
  have hcase : n = 0 ∨ effort.length < n := by omega
  rw [main_dp effort n (by omega) (by omega)]
  rcases hcase with h0 | hgt
  · subst h0
    rw [rowVal_zero, if_neg (by omega)]
    rfl
  · rw [rowVal_of_lt effort n effort.length hgt]
    rfl

/-- C17 amended, at `effort = [1, 2, 3]`: `K = 0` and `K = 7` both print `2147483647`. -/
theorem out_of_range_K_prints_sentinel_witness :
    main32 [1, 2, 3] 0 = some 2147483647 ∧ main32 [1, 2, 3] 7 = some 2147483647 :=
  ⟨(out_of_range_K_prints_sentinel [1, 2, 3] 0 (by decide) (by decide) (by decide)
      (by decide)).1,
    (out_of_range_K_prints_sentinel [1, 2, 3] 7 (by decide) (by decide) (by decide)
      (by decide)).1⟩

/-- C18: for non-negative efforts with sum below `2^31 - 1` and `1 ≤ K ≤ N`, the program
prints the same number on `effort` and on its reversal. -/
theorem reversal_invariant (effort : List Int) (K : Nat)
    (hnn : ∀ x ∈ effort, 0 ≤ x) (hsum : effort.sum < 2147483647)
    (h1 : 1 ≤ K) (hK : K ≤ effort.length) :
    ∃ r, main effort (K : Int) = some r ∧ main effort.reverse (K : Int) = some r := by
  obtain ⟨r, hr, hmin⟩ := main_isMinCost_of_sum effort K hnn hsum h1 hK
  obtain ⟨r', hr', hmin'⟩ := main_isMinCost_of_sum effort.reverse K
    (fun x hx => hnn x (List.mem_reverse.mp hx)) (by rw [List.sum_reverse]; exact hsum) h1
    (by rw [List.length_reverse]; exact hK)
  have : r' = r := hmin'.unique hmin.reverseMin
  subst this
  exact ⟨r', hr, hr'⟩

/-- C18 at `effort = [1, 2, 3]`, `K = 2`: the program prints `4` on `[1, 2, 3]` and on
`[3, 2, 1]`. -/
theorem reversal_invariant_witness :
    main [1, 2, 3] 2 = some 4 ∧ main [3, 2, 1] 2 = some 4 ∧
      ∃ r, main [1, 2, 3] ((2 : Nat) : Int) = some r ∧
        main ([1, 2, 3] : List Int).reverse ((2 : Nat) : Int) = some r :=
  ⟨by decide, by decide,
    reversal_invariant [1, 2, 3] 2 (by decide) (by decide) (by decide) (by decide)⟩

/-! ## The rolling-row variant computes the rows of the table -/

theorem rollStep_rowOf (effort : List Int) (gp gc : Nat → Int) (i j : Nat) (mx : Int)
    (hj : 1 ≤ j) (hji : j ≤ i) (hiN : i ≤ effort.length) :
    rollStep effort (rowOf (effort.length + 1) gp) i j (rowOf (effort.length + 1) gc, mx) =
      some (rowOf (effort.length + 1)
              (Function.update gc i (cellStep effort gp j (gc i, mx)).1),
            (cellStep effort gp j (gc i, mx)).2) := by
  have hj1 : j - 1 < effort.length := by omega
  have he : effort[j - 1]? = some (effort.getD (j - 1) 0) := by
    rw [List.getD_eq_getElem?_getD, List.getElem?_eq_getElem hj1]; simp
  have hi1 : i < effort.length + 1 := by omega
  unfold rollStep
  simp only [vget_pred _ j hj, vget_natCast, he,
    rowOf_get (effort.length + 1) gp (j - 1) (by omega), rowOf_get (effort.length + 1) gc i hi1]
  by_cases hp : gp (j - 1) = INT_MAX
  · simp [hp, cellStep]
  · simp [hp, cellStep, vset_rowOf (effort.length + 1) gc i _ hi1]

theorem forDown_rollStep (effort : List Int) (gp : Nat → Int) (i : Nat)
    (hiN : i ≤ effort.length) :
    ∀ (n hi : Nat) (gc : Nat → Int) (mx : Int), hi ≤ i → n ≤ hi →
      forDown (rollStep effort (rowOf (effort.length + 1) gp) i) hi n
          (rowOf (effort.length + 1) gc, mx) =
        some (rowOf (effort.length + 1)
                (Function.update gc i (cellLoop effort gp hi n (gc i, mx)).1),
              (cellLoop effort gp hi n (gc i, mx)).2) := by
  intro n
  induction n with
  | zero =>
    intro hi gc mx _ _
    simp [forDown, cellLoop]
  | succ n ih =>
    intro hi gc mx hhi hn
    rw [forDown, rollStep_rowOf effort gp gc i hi mx (by omega) hhi hiN]
    simp only []
    rw [ih (hi - 1) _ _ (by omega) (by omega)]
    simp [cellLoop]

theorem rollCell_rowOf (effort : List Int) (gp gc : Nat → Int) (k i : Nat) (hk : 1 ≤ k)
    (hki : k ≤ i) (hiN : i ≤ effort.length) :
    rollCell effort (rowOf (effort.length + 1) gp) k i (rowOf (effort.length + 1) gc) =
      some (rowOf (effort.length + 1)
        (Function.update gc i (cellLoop effort gp i (i + 1 - k) (gc i, 0)).1)) := by
  unfold rollCell
  rw [forDown_rollStep effort gp i hiN (i + 1 - k) i gc 0 (le_refl i) (by omega)]
  rfl

theorem forUp_rollCell (effort : List Int) (gp gc : Nat → Int) (k : Nat) (hk : 1 ≤ k) :
    ∀ n : Nat, n ≤ effort.length + 1 - k →
      forUp (rollCell effort (rowOf (effort.length + 1) gp) k) k n
          (rowOf (effort.length + 1) gc) =
        some (rowOf (effort.length + 1) (fun c =>
          if k ≤ c ∧ c < k + n then (cellLoop effort gp c (c + 1 - k) (gc c, 0)).1
          else gc c)) := by
  intro n
  induction n with
  | zero =>
    intro _
    have : (fun c => if k ≤ c ∧ c < k + 0 then (cellLoop effort gp c (c + 1 - k) (gc c, 0)).1
        else gc c) = gc := by
      funext c
      simp
    rw [this]
    simp [forUp]
  | succ n ih =>
    intro hn
    rw [forUp_succ_last, ih (by omega)]
    simp only [Option.some_bind]
    rw [rollCell_rowOf effort gp _ k (k + n) hk (by omega) (by omega)]
    congr 2
    funext c
    by_cases hc : c = k + n
    · subst hc
      simp
    · rw [Function.update_noteq hc]
      have : (c < k + n) ↔ (c < k + (n + 1)) := by omega
      simp [this]

theorem rollRow_rowVal (effort : List Int) (n : Nat) :
    rollRow effort effort.length (n + 1) (rowOf (effort.length + 1) (rowVal effort n)) =
      some (rowOf (effort.length + 1) (rowVal effort (n + 1))) := by
  have hrep : List.replicate (effort.length + 1) INT_MAX =
      rowOf (effort.length + 1) (fun _ => INT_MAX) := by
    simp [rowOf]
  unfold rollRow
  rw [hrep, forUp_rollCell effort (rowVal effort n) (fun _ => INT_MAX) (n + 1) (by omega) _
    (le_refl _)]
  congr 1
  apply rowOf_congr
  intro c hc
  by_cases hnc : n + 1 ≤ c
  · have h3 : c < n + 1 + (effort.length + 1 - (n + 1)) := by omega
    have h4 : c + 1 - (n + 1) = c - n := by omega
    simp only [hnc, h3, and_self, if_true, h4]
    simp [rowVal, hnc]
  · simp [rowVal, hnc]

theorem firstRow_eq (effort : List Int) (N : Nat) :
    (0 : Int) :: List.replicate N INT_MAX = rowOf (N + 1) (rowVal effort 0) := by
  apply List.ext_getElem?
  intro m
  cases m with
  | zero => rw [rowOf_get _ _ 0 (by omega)]; simp [rowVal]
  | succ m =>
    by_cases hm : m < N
    · rw [rowOf_get _ _ (m + 1) (by omega)]
      simp [rowVal, hm]
    · have h1 : ((0 : Int) :: List.replicate N INT_MAX).length ≤ m + 1 := by simp; omega
      have h2 : (rowOf (N + 1) (rowVal effort 0)).length ≤ m + 1 := by
        rw [rowOf_length]; omega
      rw [List.getElem?_eq_none h1, List.getElem?_eq_none h2]

theorem rollingRows_eq (effort : List Int) :
    ∀ K : Nat, rollingRows effort effort.length K =
      some (rowOf (effort.length + 1) (rowVal effort K)) := by
  intro K
  unfold rollingRows
  rw [firstRow_eq effort]
  induction K with
  | zero => simp [forUp]
  | succ n ih =>
    rw [forUp_succ_last, ih]
    simp only [Option.some_bind]
    have h1 : 1 + n = n + 1 := by omega
    rw [h1, rollRow_rowVal]

theorem rollingResult_eq (effort : List Int) (K : Nat) :
    rollingResult effort K = some (rowVal effort K effort.length) := by
  unfold rollingResult
  rw [rollingRows_eq]
  simp only []
  rw [vget_natCast, rowOf_get _ _ _ (by omega)]

/-- C12: for every effort and every `K` (in particular `1 ≤ K ≤ N`), the rolling-row variant
ends with row `K` of the full table and prints its entry `dp[K][N]`; every row `k ≥ 1` of the
table is the rolling update of row `k - 1`, and in the table branch (`1 < K < N`) the program
prints what the variant prints. -/
theorem rolling_rows_equivalent (effort : List Int) (K : Nat) :
    ∃ dp row v, fillTable effort effort.length (K : Int) = some dp ∧
      vget dp (K : Int) = some row ∧ vget row (effort.length : Int) = some v ∧
      rollingRows effort effort.length K = some row ∧ rollingResult effort K = some v ∧
      (∀ k : Nat, 1 ≤ k → k ≤ K →
        ∃ prevRow, vget dp ((k : Int) - 1) = some prevRow ∧
          rollRow effort effort.length k prevRow = vget dp (k : Int)) ∧
      (1 < K → K < effort.length → main effort (K : Int) = rollingResult effort K) := by
  have h := tab_entry (K + 1) (effort.length + 1) (rowVal effort) K effort.length
    (by omega) (by omega)
  refine ⟨_, _, _, fillTable_eq effort K, h.1, h.2, rollingRows_eq effort K,
    rollingResult_eq effort K, ?_, ?_⟩
  · intro k hk1 hkK
    obtain ⟨n, rfl⟩ : ∃ n, k = n + 1 := ⟨k - 1, by omega⟩
    have hp := tab_entry (K + 1) (effort.length + 1) (rowVal effort) n 0 (by omega) (by omega)
    have hc := tab_entry (K + 1) (effort.length + 1) (rowVal effort) (n + 1) 0 (by omega)
      (by omega)
    have hcast : ((n + 1 : Nat) : Int) - 1 = (n : Int) := by push_cast; ring
    refine ⟨_, by rw [hcast]; exact hp.1, ?_⟩
    rw [hc.1, rollRow_rowVal]
  · intro hK1 hKN
    rw [main_dp effort K (by omega) (by omega), rollingResult_eq]

/-- C12 at `effort = [10, 20, 30]`, `K = 2`: the rolling variant ends with the row
`[INT_MAX, INT_MAX, 30, 40]`, row 2 of the table, and prints `40`. -/
theorem rolling_rows_equivalent_witness :
    rollingRows [10, 20, 30] 3 2 = some [2147483647, 2147483647, 30, 40] ∧
      rollingResult [10, 20, 30] 2 = some 40 ∧
      ∃ dp row v, fillTable [10, 20, 30] 3 ((2 : Nat) : Int) = some dp ∧
        vget dp ((2 : Nat) : Int) = some row ∧ vget row ((3 : Nat) : Int) = some v ∧
        rollingRows [10, 20, 30] 3 2 = some row ∧ rollingResult [10, 20, 30] 2 = some v := by
  obtain ⟨dp, row, v, h1, h2, h3, h4, h5, _⟩ :=
    rolling_rows_equivalent [10, 20, 30] 2
  exact ⟨by decide, by decide, dp, row, v, h1, h2, h3, h4, h5⟩

/-! ## The additions of the program stay in range -/

theorem accumulateA_wrap (l : List Int) : ∀ a : Int,
    accumulateA addWrap l a = some (accumulate l a) := by
  induction l with
  | nil => intro a; rfl
  | cons x xs ih =>
    intro a
    simp only [accumulateA, addWrap, accumulate, List.foldl_cons]
    exact ih _

theorem splitStepA_wrap (effort : List Int) (k i : Nat) :
    splitStepA addWrap effort k i = splitStep effort k i := by
  funext j st
  rfl

theorem fillTableA_wrap (effort : List Int) (N : Nat) (K : Int) :
    fillTableA addWrap effort N K = fillTable effort N K := by
  have hcell : fillCellA addWrap effort = fillCell effort := by
    funext k i dp
    unfold fillCellA fillCell
    rw [splitStepA_wrap]
  have hrow : fillRowA addWrap effort N = fillRow effort N := by
    funext k dp
    unfold fillRowA fillRow
    rw [hcell]
  simp only [fillTableA, fillTable, hrow]

/-- With the wrap-around addition the parametrised program is `main`. -/
theorem mainA_wrap (effort : List Int) (K : Int) : mainA addWrap effort K = main effort K := by
  simp only [mainA, main, fillTableA_wrap, accumulateA_wrap]

theorem loopInv_start (effort : List Int) (k i : Nat) :
    LoopInv effort k i i (INT_MAX, 0) := by
  refine ⟨?_, fun h => absurd rfl h, ?_⟩
  · have : (effort.take i).drop i = [] := by
      apply List.drop_eq_nil_of_le
      rw [List.length_take]; omega
    rw [this]; rfl
  · intro init m h1 h2
    omega

theorem candidate_in_range (effort : List Int) (hnn : ∀ x ∈ effort, 0 ≤ x) (k i : Nat)
    (hiN : i ≤ effort.length) (prev : Nat → Int)
    (hprev : ∀ m, m < i → Good effort k m (prev m)) (hi : Nat) (h1 : 1 ≤ hi) (h2 : hi ≤ i)
    (st : Int × Int) (hinv : LoopInv effort k i hi st) (hp : prev (hi - 1) ≠ INT_MAX) :
    0 ≤ prev (hi - 1) + max st.2 (effort.getD (hi - 1) 0) ∧
      prev (hi - 1) + max st.2 (effort.getD (hi - 1) 0) ≤ (effort.take i).sum := by
  have hdrop := drop_pred_take effort hi i h1 h2 hiN
  have he : 0 ≤ effort.getD (hi - 1) 0 := getD_nonneg effort hnn _
  have hmx' : max st.2 (effort.getD (hi - 1) 0) = groupMax ((effort.take i).drop (hi - 1)) := by
    rw [hdrop, groupMax_cons _ _ he, hinv.1]
  obtain ⟨init0, hcut0, hcost0⟩ := (hprev (hi - 1) (by omega)).1 hp
  have hcut := hcut0.snoc (by omega : hi - 1 < i) hiN
  have hb := cost_bounds (init0 ++ [(effort.take i).drop (hi - 1)]) (by
    rw [hcut.1]
    intro x hx
    exact hnn x (List.mem_of_mem_take hx))
  rw [hcut.1, cost_append, cost_cons, cost_nil, add_zero, hcost0, ← hmx'] at hb
  exact hb

theorem splitStepA_agree (add : Int → Int → Option Int) (effort : List Int) (R k i j : Nat)
    (f : Nat → Nat → Int) (mx : Int) (hk : 1 ≤ k) (hkj : k ≤ j) (hji : j ≤ i)
    (hiN : i ≤ effort.length) (hkR : k < R)
    (hadd : f (k - 1) (j - 1) ≠ INT_MAX →
      add (f (k - 1) (j - 1)) (max mx (effort.getD (j - 1) 0)) =
        some (wrap32 (f (k - 1) (j - 1) + max mx (effort.getD (j - 1) 0)))) :
    splitStepA add effort k i j (tab R (effort.length + 1) f, mx) =
      splitStep effort k i j (tab R (effort.length + 1) f, mx) := by
  have hj1 : j - 1 < effort.length := by omega
  have he : effort[j - 1]? = some (effort.getD (j - 1) 0) := by
    rw [List.getD_eq_getElem?_getD, List.getElem?_eq_getElem hj1]; simp
  unfold splitStepA splitStep
  simp only [vget_pred _ j (by omega), vget_pred _ k hk, vget_natCast, he,
    tab_get R _ f (k - 1) (by omega), rowOf_get (effort.length + 1) (f (k - 1)) (j - 1) (by omega)]
  by_cases hp : f (k - 1) (j - 1) = INT_MAX
  · simp [hp]
  · simp only [ne_eq, hp, not_false_eq_true, if_true, hadd hp]

theorem forDown_agree (add : Int → Int → Option Int) (effort : List Int)
    (hnn : ∀ x ∈ effort, 0 ≤ x) (hsum : effort.sum < 2147483647)
    (hadd : ExactUpTo add effort.sum) (R k i : Nat) (hk : 1 ≤ k) (hiN : i ≤ effort.length)
    (hkR : k < R) :
    ∀ (n hi : Nat) (f : Nat → Nat → Int) (mx : Int), hi ≤ i → k + n ≤ hi + 1 →
      (∀ m, m < i → Good effort (k - 1) m (f (k - 1) m)) →
      LoopInv effort (k - 1) i hi (f k i, mx) →
      forDown (splitStepA add effort k i) hi n (tab R (effort.length + 1) f, mx) =
        forDown (splitStep effort k i) hi n (tab R (effort.length + 1) f, mx) := by
  intro n
  induction n with
  | zero =>
    intro hi f mx _ _ _ _
    rfl
  | succ n ih =>
    intro hi f mx hhi hkn hgood hinv
    have hstep : splitStepA add effort k i hi (tab R (effort.length + 1) f, mx) =
        splitStep effort k i hi (tab R (effort.length + 1) f, mx) := by
      apply splitStepA_agree add effort R k i hi f mx hk (by omega) hhi hiN hkR
      intro hp
      have hc := candidate_in_range effort hnn (k - 1) i hiN (f (k - 1)) hgood hi (by omega) hhi
        (f k i, mx) hinv hp
      have hle := sum_take_le effort hnn i
      have hc1 : 0 ≤ f (k - 1) (hi - 1) + max mx (effort.getD (hi - 1) 0) := hc.1
      have hc2 : f (k - 1) (hi - 1) + max mx (effort.getD (hi - 1) 0) ≤ (effort.take i).sum :=
        hc.2
      rw [hadd _ _ hc1 (by omega), wrap32_of_range _ (by omega) (by omega)]
    have hfit : CostsFit effort (k - 1 + 1) := costsFit_of_sum effort hnn hsum _
    have hnext := cellStep_inv effort hnn (k - 1) i hfit hiN (f (k - 1)) hgood hi (by omega) hhi
      (f k i, mx) hinv
    rw [forDown, forDown, hstep, splitStep_tab effort R k i hi f mx hk (by omega) hhi hiN hkR]
    simp only []
    apply ih (hi - 1) _ _ (by omega) (by omega)
    · intro m hm
      rw [setCell_row f k i (k - 1) _ (by omega)]
      exact hgood m hm
    · rw [setCell_same]
      exact hnext

theorem fillCellA_agree (add : Int → Int → Option Int) (effort : List Int)
    (hnn : ∀ x ∈ effort, 0 ≤ x) (hsum : effort.sum < 2147483647)
    (hadd : ExactUpTo add effort.sum) (R k i : Nat) (f : Nat → Nat → Int) (hk : 1 ≤ k)
    (hki : k ≤ i) (hiN : i ≤ effort.length) (hkR : k < R)
    (hgood : ∀ m, m < i → Good effort (k - 1) m (f (k - 1) m)) (hfresh : f k i = INT_MAX) :
    fillCellA add effort k i (tab R (effort.length + 1) f) =
      fillCell effort k i (tab R (effort.length + 1) f) := by
  unfold fillCellA fillCell
  rw [forDown_agree add effort hnn hsum hadd R k i hk hiN hkR (i + 1 - k) i f 0 (le_refl i)
    (by omega) hgood (by rw [hfresh]; exact loopInv_start effort (k - 1) i)]

theorem forUp_fillCellA_agree (add : Int → Int → Option Int) (effort : List Int)
    (hnn : ∀ x ∈ effort, 0 ≤ x) (hsum : effort.sum < 2147483647)
    (hadd : ExactUpTo add effort.sum) (R k : Nat) (f : Nat → Nat → Int) (hk : 1 ≤ k)
    (hkR : k < R)
    (hgood : ∀ m, m ≤ effort.length → Good effort (k - 1) m (f (k - 1) m))
    (hfresh : ∀ c, f k c = INT_MAX) :
    ∀ n : Nat, n ≤ effort.length + 1 - k →
      forUp (fillCellA add effort k) k n (tab R (effort.length + 1) f) =
        forUp (fillCell effort k) k n (tab R (effort.length + 1) f) := by
  intro n
  induction n with
  | zero => intro _; rfl
  | succ n ih =>
    intro hn
    rw [forUp_succ_last, forUp_succ_last, ih (by omega),
      forUp_fillCell effort R k f hk hkR n (by omega)]
    simp only [Option.some_bind]
    apply fillCellA_agree add effort hnn hsum hadd R k (k + n) _ hk (by omega) (by omega) hkR
    · intro m hm
      have : k - 1 ≠ k := by omega
      simp only [rowPartial, this, false_and, if_false]
      exact hgood m (by omega)
    · simp only [rowPartial, lt_self_iff_false, and_false, if_false]
      exact hfresh _

theorem fillRowA_agree (add : Int → Int → Option Int) (effort : List Int)
    (hnn : ∀ x ∈ effort, 0 ≤ x) (hsum : effort.sum < 2147483647)
    (hadd : ExactUpTo add effort.sum) (R n : Nat) (hR : n + 1 < R) :
    fillRowA add effort effort.length (n + 1) (tab R (effort.length + 1) (upTo effort n)) =
      fillRow effort effort.length (n + 1) (tab R (effort.length + 1) (upTo effort n)) := by
  unfold fillRowA fillRow
  apply forUp_fillCellA_agree add effort hnn hsum hadd R (n + 1) _ (by omega) hR _ _ _ (le_refl _)
  · intro m hm
    simp only [Nat.add_sub_cancel, upTo, le_refl, if_true]
    exact rowVal_good effort hnn n m (costsFit_of_sum effort hnn hsum n) hm
  · intro c
    simp [upTo]

theorem forUp_fillRowA_agree (add : Int → Int → Option Int) (effort : List Int)
    (hnn : ∀ x ∈ effort, 0 ≤ x) (hsum : effort.sum < 2147483647)
    (hadd : ExactUpTo add effort.sum) (R : Nat) :
    ∀ n : Nat, n < R →
      forUp (fillRowA add effort effort.length) 1 n
          (tab R (effort.length + 1) (upTo effort 0)) =
        forUp (fillRow effort effort.length) 1 n
          (tab R (effort.length + 1) (upTo effort 0)) := by
  intro n
  induction n with
  | zero => intro _; rfl
  | succ n ih =>
    intro hn
    rw [forUp_succ_last, forUp_succ_last, ih (by omega), forUp_fillRow effort R n (by omega)]
    simp only [Option.some_bind]
    have h1 : 1 + n = n + 1 := by omega
    rw [h1]
    exact fillRowA_agree add effort hnn hsum hadd R n hn

theorem fillTableA_eq_forUp (add : Int → Int → Option Int) (effort : List Int) (K : Nat) :
    fillTableA add effort effort.length (K : Int) =
      forUp (fillRowA add effort effort.length) 1 K
        (tab (K + 1) (effort.length + 1) (upTo effort 0)) := by
  have hneg : ¬ ((K : Int) + 1 < 0) := by omega
  have hrows : ((K : Int) + 1).toNat = K + 1 := by omega
  have hinit : tab (K + 1) (effort.length + 1)
      (Function.update (fun _ _ => INT_MAX) 0 (Function.update (fun _ => INT_MAX) 0 0)) =
      tab (K + 1) (effort.length + 1) (upTo effort 0) := by
    apply tab_congr
    intro r c _ _
    by_cases hr : r = 0
    · subst hr
      by_cases hc : c = 0
      · subst hc; simp [upTo, rowVal]
      · simp [upTo, rowVal, hc, Function.update_noteq hc]
    · simp [upTo, hr, Function.update_noteq hr]
  have e1 : vget (tab (K + 1) (effort.length + 1) (fun _ _ => INT_MAX)) 0 =
      some (rowOf (effort.length + 1) (fun _ => INT_MAX)) := by
    have h := vget_natCast (tab (K + 1) (effort.length + 1) (fun _ _ => INT_MAX)) 0
    rw [tab_get _ _ _ 0 (by omega)] at h
    simpa using h
  have e2 : vset (rowOf (effort.length + 1) (fun _ => INT_MAX)) 0 0 =
      some (rowOf (effort.length + 1) (Function.update (fun _ => INT_MAX) 0 0)) := by
    simpa using vset_rowOf (effort.length + 1) (fun _ => INT_MAX) 0 0 (by omega)
  have e3 : vset (tab (K + 1) (effort.length + 1) (fun _ _ => INT_MAX)) 0
        (rowOf (effort.length + 1) (Function.update (fun _ => INT_MAX) 0 0)) =
      some (tab (K + 1) (effort.length + 1)
        (Function.update (fun _ _ => INT_MAX) 0 (Function.update (fun _ => INT_MAX) 0 0))) := by
    simpa using vset_tab (K + 1) (effort.length + 1) (fun _ _ => INT_MAX) 0
      (Function.update (fun _ => INT_MAX) 0 0) (by omega)
  unfold fillTableA
  simp only [hneg, if_false, hrows, replicate_eq_tab, e1, e2, e3, Int.toNat_ofNat]
  rw [hinit]

theorem fillTableA_agree (add : Int → Int → Option Int) (effort : List Int)
    (hnn : ∀ x ∈ effort, 0 ≤ x) (hsum : effort.sum < 2147483647)
    (hadd : ExactUpTo add effort.sum) (K : Nat) :
    fillTableA add effort effort.length (K : Int) = fillTable effort effort.length (K : Int) := by
  have hfin : tab (K + 1) (effort.length + 1) (upTo effort K) =
      tab (K + 1) (effort.length + 1) (rowVal effort) := by
    apply tab_congr
    intro r c hr _
    have : r ≤ K := by omega
    simp [upTo, this]
  rw [fillTableA_eq_forUp, forUp_fillRowA_agree add effort hnn hsum hadd (K + 1) K (by omega),
    forUp_fillRow effort (K + 1) K (by omega), hfin, fillTable_eq]

theorem accumulateA_exact (add : Int → Int → Option Int) (S : Int) (hadd : ExactUpTo add S)
    (l : List Int) (hnn : ∀ x ∈ l, 0 ≤ x) :
    ∀ a : Int, 0 ≤ a → a + l.sum ≤ S → accumulateA add l a = some (a + l.sum) := by
  induction l with
  | nil => intro a _ _; simp [accumulateA]
  | cons x xs ih =>
    intro a ha hS
    have hx : 0 ≤ x := hnn x (by simp)
    have hxs : 0 ≤ xs.sum := List.sum_nonneg (fun y hy => hnn y (by simp [hy]))
    rw [List.sum_cons] at hS
    rw [accumulateA, hadd a x (by omega) (by omega)]
    simp only []
    rw [ih (fun y hy => hnn y (by simp [hy])) (a + x) (by omega) (by omega), List.sum_cons,
      add_assoc]

theorem mainA_agree (add : Int → Int → Option Int) (effort : List Int)
    (hnn : ∀ x ∈ effort, 0 ≤ x) (hsum : effort.sum < 2147483647)
    (hadd : ExactUpTo add effort.sum) (K : Nat) :
    mainA add effort (K : Int) = main effort (K : Int) := by
  have h0 : 0 ≤ effort.sum := List.sum_nonneg hnn
  have hacc : accumulateA add effort 0 = some (accumulate effort 0) := by
    rw [accumulateA_exact add effort.sum hadd effort hnn 0 (le_refl 0) (by omega),
      accumulate_eq_sum effort (by omega) (by omega), zero_add]
  simp only [mainA, main, fillTableA_agree add effort hnn hsum hadd K, hacc]

theorem exactUpTo_addExact (S : Int) : ExactUpTo addExact S :=
  fun _ _ _ _ => rfl

theorem exactUpTo_addChecked (S : Int) (hS : S ≤ 2147483647) : ExactUpTo addChecked S := by
  intro a b h0 h1
  have : -2147483648 ≤ a + b ∧ a + b ≤ 2147483647 := ⟨by omega, by omega⟩
  simp [addChecked, this]

theorem candidate_of_entries (effort : List Int) (hnn : ∀ x ∈ effort, 0 ≤ x)
    (hsum : effort.sum < 2147483647) (k i j : Nat) (hk : 1 ≤ k) (hkj : k ≤ j) (hji : j ≤ i)
    (hiN : i ≤ effort.length) (hp : rowVal effort (k - 1) (j - 1) ≠ INT_MAX) :
    0 ≤ rowVal effort (k - 1) (j - 1) + groupMax ((effort.take i).drop (j - 1)) ∧
      rowVal effort (k - 1) (j - 1) + groupMax ((effort.take i).drop (j - 1)) ≤
        (effort.take i).sum := by
  have hgood := rowVal_good effort hnn (k - 1) (j - 1)
    (costsFit_of_sum effort hnn hsum (k - 1)) (by omega)
  obtain ⟨init0, hcut0, hcost0⟩ := hgood.1 hp
  have hcut := hcut0.snoc (by omega : j - 1 < i) hiN
  have hb := cost_bounds (init0 ++ [(effort.take i).drop (j - 1)]) (by
    rw [hcut.1]
    intro x hx
    exact hnn x (List.mem_of_mem_take hx))
  rw [hcut.1, cost_append, cost_cons, cost_nil, add_zero, hcost0] at hb
  exact hb

theorem feasible_ne_sentinel (effort : List Int) (hnn : ∀ x ∈ effort, 0 ≤ x)
    (hsum : effort.sum < 2147483647) (k i : Nat) (hi : i ≤ effort.length)
    (hcut : ∃ gs, IsCut (effort.take i) k gs) : rowVal effort k i ≠ INT_MAX := by
  obtain ⟨gs, hgs⟩ := hcut
  have hfit := costsFit_of_sum effort hnn hsum k
  have h1 := (rowVal_good effort hnn k i hfit hi).2 gs hgs
  have h2 := hfit k i gs (le_refl k) hi hgs
  omega

/-- C16: for non-negative efforts with sum below `2^31 - 1 = INT_MAX` and `1 ≤ K ≤ N`, no
addition of the program leaves the range of a 32-bit `int`. Every partial sum of
`accumulate` lies between `0` and `sum(effort)`; every candidate `dp[k-1][j-1] + mx` that is
computed (the entry not being the sentinel, `mx` being the largest of `effort[j-1 .. i-1]`)
lies between `0` and `sum(effort[0 .. i-1])`; the program prints the same number with any
addition that is exact on `0 .. sum(effort)`, in particular with checked 32-bit addition and
with addition over unbounded integers; and an entry `dp[k][i]` for which a cut exists is
never the sentinel. -/
theorem no_overflow (effort : List Int) (K : Nat)
    (hnn : ∀ x ∈ effort, 0 ≤ x) (hsum : effort.sum < 2147483647)
    (h1 : 1 ≤ K) (hK : K ≤ effort.length) :
    (∀ n : Nat, n ≤ effort.length →
      0 ≤ (effort.take n).sum ∧ (effort.take n).sum ≤ effort.sum ∧
        accumulate (effort.take n) 0 = (effort.take n).sum) ∧
      (∃ dp, fillTable effort effort.length (K : Int) = some dp ∧
        (∀ k i j : Nat, 1 ≤ k → k ≤ K → k ≤ j → j ≤ i → i ≤ effort.length →
          ∃ row p, vget dp ((k : Int) - 1) = some row ∧ vget row ((j : Int) - 1) = some p ∧
            (p ≠ INT_MAX →
              0 ≤ p + groupMax ((effort.take i).drop (j - 1)) ∧
                p + groupMax ((effort.take i).drop (j - 1)) ≤ (effort.take i).sum)) ∧
        (∀ k i : Nat, k ≤ K → i ≤ effort.length →
          ∃ row v, vget dp (k : Int) = some row ∧ vget row (i : Int) = some v ∧
            ((∃ gs, IsCut (effort.take i) k gs) → v ≠ INT_MAX))) ∧
      (∀ add : Int → Int → Option Int, ExactUpTo add effort.sum →
        mainA add effort (K : Int) = main effort (K : Int)) ∧
      ∃ r, main effort (K : Int) = some r ∧ mainA addChecked effort (K : Int) = some r ∧
        mainA addExact effort (K : Int) = some r := by
  refine ⟨?_, ⟨_, fillTable_eq effort K, ?_, ?_⟩, ?_, ?_⟩
  · intro n _
    have hnn' : ∀ x ∈ effort.take n, 0 ≤ x := fun x hx => hnn x (List.mem_of_mem_take hx)
    have h0 : 0 ≤ (effort.take n).sum := List.sum_nonneg hnn'
    have hle := sum_take_le effort hnn n
    exact ⟨h0, hle, accumulate_eq_sum _ (by omega) (by omega)⟩
  · intro k i j hk1 hkK hkj hji hiN
    have h := tab_entry (K + 1) (effort.length + 1) (rowVal effort) (k - 1) (j - 1)
      (by omega) (by omega)
    have hk' : ((k - 1 : Nat) : Int) = (k : Int) - 1 := by omega
    have hj' : ((j - 1 : Nat) : Int) = (j : Int) - 1 := by omega
    rw [hk', hj'] at h
    exact ⟨_, _, h.1, h.2, candidate_of_entries effort hnn hsum k i j hk1 hkj hji hiN⟩
  · intro k i hk hi
    have h := tab_entry (K + 1) (effort.length + 1) (rowVal effort) k i (by omega) (by omega)
    exact ⟨_, _, h.1, h.2, feasible_ne_sentinel effort hnn hsum k i hi⟩
  · intro add hadd
    exact mainA_agree add effort hnn hsum hadd K
  · obtain ⟨r, hr, _⟩ := main_isMinCost_of_sum effort K hnn hsum h1 hK
    refine ⟨r, hr, ?_, ?_⟩
    · rw [mainA_agree addChecked effort hnn hsum (exactUpTo_addChecked _ (by omega)) K, hr]
    · rw [mainA_agree addExact effort hnn hsum (exactUpTo_addExact _) K, hr]

/-- C16 at `effort = [3, 0, 2]`, `K = 2`: the program prints `5` with wrap-around, checked
and exact addition. -/
theorem no_overflow_witness :
    main [3, 0, 2] 2 = some 5 ∧ mainA addChecked [3, 0, 2] 2 = some 5 ∧
      mainA addExact [3, 0, 2] 2 = some 5 ∧
      ∃ r, main [3, 0, 2] ((2 : Nat) : Int) = some r ∧
        mainA addChecked [3, 0, 2] ((2 : Nat) : Int) = some r ∧
        mainA addExact [3, 0, 2] ((2 : Nat) : Int) = some r :=
  ⟨by decide, by decide, by decide,
    (no_overflow [3, 0, 2] 2 (by decide) (by decide) (by decide) (by decide)).2.2.2⟩

end GroupMax
